import Mathlib

/-!
Verification of the PythonAutoImport plugin (`auto_import.py`).

Strings are embedded as `List Char`; each Python string primitive the
source uses (`strip`, `split`, `replace`, `startswith`, …) is given a
faithful executable model.  `split`/`replace` scan for the leftmost
occurrence and are implemented with a fuel argument so that every
definition reduces inside the kernel.

The editor buffer is modelled as the list of its lines (without the
terminating newlines), which is exactly what `view.lines(...)` /
`view.substr(...)` expose to the plugin; the two `view.replace` calls of
the source each rewrite one contiguous range of lines and are modelled as
list splices.
-/

set_option maxRecDepth 4000

namespace AutoImport

/-- The characters of a Lean string literal, used to write concrete
Python string values. -/
def chars (s : String) : List Char := s.data

/-- The apostrophe character (used by the `'''` block-comment delimiter
and the `[#'"]` comment test of the source). -/
def squote : Char := Char.ofNat 39

/-- Drop from the right while the predicate holds (for Python's
right-hand strip). -/
def rdropP (p : Char → Bool) (s : List Char) : List Char :=
  (s.reverse.dropWhile p).reverse

/-- Python `str.strip()`: remove leading and trailing whitespace. -/
def pystrip (s : List Char) : List Char :=
  rdropP Char.isWhitespace (s.dropWhile Char.isWhitespace)

/-- Python `str.strip('.')`: remove leading and trailing dots. -/
def stripDots (s : List Char) : List Char :=
  rdropP (fun c => c = '.') (s.dropWhile (fun c => c = '.'))

/-- Helper: attach a character to the front of the first piece of a
split result. -/
def consHead (a : Char) : List (List Char) → List (List Char)
  | [] => [[a]]
  | h :: t => (a :: h) :: t

/-- Python `str.split(c)` for a single-character separator. -/
def splitChar (c : Char) : List Char → List (List Char)
  | [] => [[]]
  | a :: s => if a = c then [] :: splitChar c s else consHead a (splitChar c s)

/-- Fuelled core of Python `str.split(sep)` (leftmost, non-overlapping). -/
def splitOnFuel (sep : List Char) : Nat → List Char → List (List Char)
  | 0, s => [s]
  | fuel+1, s =>
    if sep.isPrefixOf s && !sep.isEmpty then
      [] :: splitOnFuel sep fuel (s.drop sep.length)
    else
      match s with
      | [] => [[]]
      | a :: s' => consHead a (splitOnFuel sep fuel s')

/-- Python `str.split(sep)` for a nonempty separator. -/
def pysplitOn (sep s : List Char) : List (List Char) :=
  splitOnFuel sep (s.length + 1) s

/-- Fuelled core of Python `str.replace(old, new)` (all leftmost,
non-overlapping occurrences). -/
def replaceFuel (old new : List Char) : Nat → List Char → List Char
  | 0, s => s
  | fuel+1, s =>
    if old.isPrefixOf s && !old.isEmpty then
      new ++ replaceFuel old new fuel (s.drop old.length)
    else
      match s with
      | [] => []
      | a :: s' => a :: replaceFuel old new fuel s'

/-- Python `str.replace(old, new)` for a nonempty `old`. -/
def pyreplace (old new s : List Char) : List Char :=
  replaceFuel old new (s.length + 1) s

/-- The three import styles recognized by the source (`ImportStyle`). -/
inductive ImportStyle
  | component
  | absolute
  | relative
deriving DecidableEq

/-- Prepend a `/` unless the string already starts with one (the
`startswith('/')` guards of `build_import_statement`). -/
def ensure_leading_slash (s : List Char) : List Char :=
  if (['/'] : List Char).isPrefixOf s then s else '/' :: s

/-- Python `path[:-len(tok)]` guarded by `path.endswith(tok)`. -/
def strip_suffix_token (tok s : List Char) : List Char :=
  if tok.isSuffixOf s then s.take (s.length - tok.length) else s

/-- Root normalization of `build_import_statement`: default `'/'`, dots to
slashes, leading slash ensured. -/
def normalize_root (root_path₀ : Option (List Char)) : List Char :=
  ensure_leading_slash (pyreplace ['.'] ['/'] (root_path₀.getD ['/']))

/-- The dotted module path `build_import_statement` computes from a file
path and an optional root path. -/
def module_path (path₀ : List Char) (root_path₀ : Option (List Char)) : List Char :=
  let root := normalize_root root_path₀
  let path₁ := ensure_leading_slash path₀
  let path₂ := if root.isPrefixOf path₁ then path₁.drop root.length else path₁
  stripDots (pyreplace ['/'] ['.']
    (strip_suffix_token (chars "__init__") (strip_suffix_token (chars ".py") path₂)))

/-- `build_import_statement` from the source: path normalization plus the
style template.  Returns `none` where the source returns `None`
(the unimplemented relative style). -/
def build_import_statement (symbol path₀ : List Char)
    (root_path₀ : Option (List Char)) (style : ImportStyle) :
    Option (List Char) :=
  let import_path := module_path path₀ root_path₀
  match style with
  | .component => some (chars "from " ++ import_path ++ chars " import " ++ symbol)
  | .absolute => some (chars "import " ++ import_path ++ '.' :: symbol)
  | .relative => none

/-- `split_import_components` from the source.  Python's
`left, right = import_statement.split('import')` raises `ValueError`
unless the split yields exactly two parts; that failure is returned as
`none`. -/
def split_import_components (stmt : List Char) :
    Option (List Char × List (List Char)) :=
  match pysplitOn (chars "import") stmt with
  | [left, right] =>
    let right₂ := pyreplace ['('] [] right
    let right₃ := pyreplace [')'] [] right₂
    let right₄ := pyreplace ['\\'] [] right₃
    let base := pystrip (pyreplace (chars "from") [] left)
    let components := ((splitChar ',' right₄).filter (fun p => !p.isEmpty)).map pystrip
    some (base, components)
  | _ => none

/-- The parser exactly as the claim words it: split once at the first
`import`, remove only a leading `from` keyword (plus surrounding
whitespace) from the left part, and drop component pieces that are empty
after stripping. -/
def split_import_components_claimed (stmt : List Char) :
    Option (List Char × List (List Char)) :=
  match pysplitOn (chars "import") stmt with
  | [] => none
  | [_] => none
  | left :: rest =>
    let right := List.intercalate (chars "import") rest
    let t := pystrip left
    let base := if (chars "from").isPrefixOf t then pystrip (t.drop 4) else t
    let pieces := splitChar ','
      (right.filter (fun c => !(c = '(' || c = ')' || c = '\\')))
    some (base, (pieces.map pystrip).filter (fun p => !p.isEmpty))

/-- The parser as amended to match the code: split on every occurrence of
the substring `import`, failing unless exactly two parts result; remove
every occurrence of the substring `from` from the left part and strip it;
on the right remove parenthesis and backslash characters, split on commas,
drop the pieces that are empty before stripping, and strip the rest. -/
def split_import_components_amended (stmt : List Char) :
    Option (List Char × List (List Char)) :=
  match pysplitOn (chars "import") stmt with
  | [left, right] =>
    some (pystrip (pyreplace (chars "from") [] left),
      (splitChar ',' (right.filter (fun c => !(c = '(' || c = ')' || c = '\\')))).filterMap
        (fun piece => if piece.isEmpty then none else some (pystrip piece)))
  | _ => none

/-- Prefix test against a one-character pattern checks just the first
character. -/
theorem isPrefixOf_single (c a : Char) (s : List Char) :
    ([c] : List Char).isPrefixOf (a :: s) = (c == a) := by
  simp [List.isPrefixOf]

theorem pyreplace_single_nil (c : Char) (s : List Char) :
    pyreplace [c] [] s = s.filter (fun a => !(a = c)) := by
  have key : ∀ (fuel : Nat) (s : List Char), s.length < fuel →
      replaceFuel [c] [] fuel s = s.filter (fun a => !(a = c)) := by
    intro fuel
    induction fuel with
    | zero => intro s hs; omega
    | succ n ih =>
      intro s hs
      match s with
      | [] => simp [replaceFuel]
      | a :: s' =>
        simp only [List.length_cons] at hs
        by_cases hac : c = a
        · subst hac
          rw [replaceFuel, isPrefixOf_single]
          simp only [beq_self_eq_true, List.isEmpty_cons, Bool.not_false, Bool.and_true,
            if_true, List.nil_append, List.length_singleton, List.drop_succ_cons,
            List.drop_zero]
          rw [ih s' (by omega), List.filter_cons_of_neg (by simp)]
        · rw [replaceFuel, isPrefixOf_single]
          have hbeq : (c == a) = false := by simp [hac]
          rw [hbeq]
          simp only [Bool.false_and, if_false, Bool.false_eq_true]
          rw [ih s' (by omega), List.filter_cons_of_pos (by simp [Ne.symm hac])]
  exact key _ s (Nat.lt_succ_self _)

/-- Filtering twice is filtering with the conjunction. -/
theorem filter_filter_char (p q : Char → Bool) (s : List Char) :
    (s.filter p).filter q = s.filter (fun c => p c && q c) := by
  induction s with
  | nil => rfl
  | cons a s ih =>
    by_cases hp : p a <;> by_cases hq : q a <;>
      simp [List.filter_cons, hp, hq, ih]

/-- Keeping nonempty pieces and then stripping them is a `filterMap`. -/
theorem filter_map_strip (xs : List (List Char)) :
    (xs.filter (fun p => !p.isEmpty)).map pystrip =
      xs.filterMap (fun piece => if piece.isEmpty then none else some (pystrip piece)) := by
  induction xs with
  | nil => rfl
  | cons a xs ih =>
    by_cases ha : a.isEmpty = true
    · rw [List.filter_cons_of_neg (by simp [ha]), List.filterMap_cons, if_pos ha]
      exact ih
    · rw [List.filter_cons_of_pos (by simp [ha]), List.map_cons,
        List.filterMap_cons, if_neg ha]
      exact congrArg (List.cons (pystrip a)) ih

/-- C2 (counterexample): on `"from from_x import a, , b"` the code removes
every occurrence of the substring `from` (yielding base `"_x"`) and keeps
the whitespace-only piece as an empty component, while the claimed parser
yields base `"from_x"` and drops the empty piece. -/
theorem C2_counterexample :
    split_import_components (chars "from from_x import a, , b")
        = some (chars "_x", [chars "a", [], chars "b"])
      ∧ split_import_components_claimed (chars "from from_x import a, , b")
        = some (chars "from_x", [chars "a", chars "b"])
      ∧ split_import_components (chars "from from_x import a, , b")
        ≠ split_import_components_claimed (chars "from from_x import a, , b") := by
  refine ⟨by decide, by decide, by decide⟩

/-- C2 (amended): the parser splits on every occurrence of the substring
`import` and fails unless exactly two parts result; the base is the left
part with every occurrence of the substring `from` removed and then
stripped; the components are the comma-separated pieces of the right part
(after removing parentheses and backslashes) that are nonempty before
stripping, each then stripped, in order. -/
theorem C2_parser_amended (stmt : List Char) :
    split_import_components stmt = split_import_components_amended stmt := by
  unfold split_import_components split_import_components_amended
  cases h : pysplitOn (chars "import") stmt with
  | nil => rfl
  | cons left rest =>
    cases rest with
    | nil => rfl
    | cons right rest' =>
      cases rest' with
      | nil =>
        simp only []
        congr 1
        congr 1
        rw [pyreplace_single_nil, pyreplace_single_nil, pyreplace_single_nil,
          filter_filter_char, filter_filter_char, filter_map_strip]
        have hfil : (fun c => !decide (c = '(') && (!decide (c = ')') && !decide (c = '\\')))
            = (fun c : Char => !(decide (c = '(') || decide (c = ')') || decide (c = '\\'))) := by
          funext c
          by_cases h1 : c = '(' <;> by_cases h2 : c = ')' <;> by_cases h3 : c = '\\' <;>
            simp [h1, h2, h3]
        rw [hfil]
      | cons _ _ => rfl

/-- C5: the three concrete formatter cases of the claim, including that an
`__init__.py` path collapses to the same statement as the bare module
path. -/
theorem C5_formatter_cases :
    build_import_statement (chars "test") (chars "/a/b/c/test.py") none .component
        = some (chars "from a.b.c.test import test")
      ∧ build_import_statement (chars "test") (chars "/a/b/c/__init__.py") none .component
        = some (chars "from a.b.c import test")
      ∧ build_import_statement (chars "test") (chars "/a/b/c/__init__.py") none .component
        = build_import_statement (chars "test") (chars "/a/b/c.py") none .component
      ∧ build_import_statement (chars "test") (chars "/a/b/c/test.py") none .absolute
        = some (chars "import a.b.c.test.test") := by
  refine ⟨by decide, by decide, by decide, by decide⟩

/-- Replacing a single character by a single character is a map. -/
theorem pyreplace_single_single (c d : Char) (s : List Char) :
    pyreplace [c] [d] s = s.map (fun a => if a = c then d else a) := by
  have key : ∀ (fuel : Nat) (s : List Char), s.length < fuel →
      replaceFuel [c] [d] fuel s = s.map (fun a => if a = c then d else a) := by
    intro fuel
    induction fuel with
    | zero => intro s hs; omega
    | succ n ih =>
      intro s hs
      match s with
      | [] => simp [replaceFuel]
      | a :: s' =>
        simp only [List.length_cons] at hs
        by_cases hac : c = a
        · subst hac
          rw [replaceFuel, isPrefixOf_single]
          simp only [beq_self_eq_true, List.isEmpty_cons, Bool.not_false, Bool.and_true,
            if_true, List.length_singleton, List.drop_succ_cons, List.drop_zero,
            List.map_cons, if_pos rfl, List.singleton_append]
          rw [ih s' (by omega)]
        · rw [replaceFuel, isPrefixOf_single]
          have hbeq : (c == a) = false := by simp [hac]
          rw [hbeq]
          simp only [Bool.false_and, if_false, Bool.false_eq_true, List.map_cons,
            if_neg (Ne.symm hac)]
          rw [ih s' (by omega)]
  exact key _ s (Nat.lt_succ_self _)

/-- Replacing a character that does not occur leaves the string alone. -/
theorem pyreplace_single_single_of_not_mem (c d : Char) (s : List Char) (h : c ∉ s) :
    pyreplace [c] [d] s = s := by
  rw [pyreplace_single_single]
  conv_rhs => rw [show s = s.map id from (List.map_id s).symm]
  apply List.map_congr_left
  intro a ha
  have : a ≠ c := fun hc => h (hc ▸ ha)
  simp [this]

/-- Converting the slashes of a dot-free string to dots and back recovers
the string. -/
theorem dotted_roundtrip (r : List Char) (h : '.' ∉ r) :
    pyreplace ['.'] ['/'] (r.map (fun c => if c = '/' then '.' else c)) = r := by
  rw [pyreplace_single_single, List.map_map]
  conv_rhs => rw [show r = r.map id from (List.map_id r).symm]
  apply List.map_congr_left
  intro a ha
  by_cases h1 : a = '/'
  · simp [h1]
  · have : a ≠ '.' := fun hc => h (hc ▸ ha)
    simp [Function.comp, h1, this]

theorem ensure_leading_slash_cons (x : List Char) :
    ensure_leading_slash ('/' :: x) = '/' :: x := by
  simp [ensure_leading_slash, List.isPrefixOf]

theorem ensure_leading_slash_append (x y : List Char) :
    ensure_leading_slash ('/' :: x ++ y) = '/' :: x ++ y := by
  rw [List.cons_append, ensure_leading_slash_cons]

theorem ensure_leading_slash_of_head (x : List Char) (h : x.head? ≠ some '/') :
    ensure_leading_slash x = '/' :: x := by
  match x with
  | [] => simp [ensure_leading_slash, List.isPrefixOf]
  | a :: x' =>
    have ha : a ≠ '/' := by
      intro hh
      exact h (by rw [List.head?_cons, hh])
    have hbeq : ('/' == a) = false := by
      simp [Ne.symm ha]
    simp [ensure_leading_slash, isPrefixOf_single, hbeq]

/-- A suffix that does not begin with a slash is a suffix of `'/' :: x`
exactly when it is a suffix of `x`. -/
theorem suffix_cons_slash_iff (tok x : List Char) (h2 : tok.head? ≠ some '/') :
    tok <:+ ('/' :: x) ↔ tok <:+ x := by
  constructor
  · rintro ⟨t, ht⟩
    cases t with
    | nil =>
      exfalso
      apply h2
      rw [List.nil_append] at ht
      rw [ht]
      rfl
    | cons c t' =>
      injection ht with h3 h4
      exact ⟨t', h4⟩
  · rintro ⟨t, ht⟩
    exact ⟨'/' :: t, by rw [List.cons_append, ht]⟩

theorem strip_suffix_token_cons_slash (tok x : List Char)
    (h2 : tok.head? ≠ some '/') :
    strip_suffix_token tok ('/' :: x) = '/' :: strip_suffix_token tok x := by
  unfold strip_suffix_token
  by_cases hs : tok <:+ x
  · have hlen : tok.length ≤ x.length := hs.length_le
    rw [if_pos (by simp [List.isSuffixOf_iff_suffix, (suffix_cons_slash_iff tok x h2).2 hs]),
      if_pos (by simp [List.isSuffixOf_iff_suffix, hs])]
    have : ('/' :: x).length - tok.length = (x.length - tok.length) + 1 := by
      simp only [List.length_cons]; omega
    rw [this, List.take_succ_cons]
  · have hns : ¬ tok <:+ ('/' :: x) := fun hh => hs ((suffix_cons_slash_iff tok x h2).1 hh)
    rw [if_neg (by simpa [List.isSuffixOf_iff_suffix] using hns),
      if_neg (by simpa [List.isSuffixOf_iff_suffix] using hs)]

/-- The suffix-processing part of `module_path` is unchanged by a leading
slash on its input. -/
theorem module_tail_cons_slash (x : List Char) :
    stripDots (pyreplace ['/'] ['.']
      (strip_suffix_token (chars "__init__") (strip_suffix_token (chars ".py") ('/' :: x))))
    = stripDots (pyreplace ['/'] ['.']
      (strip_suffix_token (chars "__init__") (strip_suffix_token (chars ".py") x))) := by
  rw [strip_suffix_token_cons_slash _ _ (by decide),
    strip_suffix_token_cons_slash _ _ (by decide),
    pyreplace_single_single, pyreplace_single_single]
  simp only [List.map_cons, if_pos rfl]
  unfold stripDots
  rw [List.dropWhile_cons_of_pos (by simp)]

/-- C8 (counterexample): with file path `/ab/c.py`, which does start with
the root string `/a`, the root given as `/a` strips as a string prefix and
yields `from b.c import t`, while the same root given with a trailing
slash yields `from ab.c import t`. -/
theorem C8_counterexample :
    (chars "/a").isPrefixOf (chars "/ab/c.py") = true
      ∧ build_import_statement (chars "t") (chars "/ab/c.py") (some (chars "/a")) .component
        = some (chars "from b.c import t")
      ∧ build_import_statement (chars "t") (chars "/ab/c.py") (some (chars "/a/")) .component
        = some (chars "from ab.c import t")
      ∧ build_import_statement (chars "t") (chars "/ab/c.py") (some (chars "/a")) .component
        ≠ build_import_statement (chars "t") (chars "/ab/c.py") (some (chars "/a/")) .component := by
  refine ⟨by decide, by decide, by decide, by decide⟩

/-- C8 (amended): when the file path extends the root by a complete
directory prefix — `P = '/' ++ r ++ '/' ++ rest` for a dot-free root `r`
that does not itself start with a slash — the built statement is the same
whether the root is given with or without a leading slash, with or without
a trailing slash, or as a dotted string. -/
theorem C8_root_normalization_amended (symbol r rest : List Char) (style : ImportStyle)
    (hne : r ≠ []) (hdot : '.' ∉ r) (hsl : r.head? ≠ some '/') :
    build_import_statement symbol ('/' :: r ++ '/' :: rest) (some r) style
        = build_import_statement symbol ('/' :: r ++ '/' :: rest) (some ('/' :: r)) style
      ∧ build_import_statement symbol ('/' :: r ++ '/' :: rest) (some ('/' :: r ++ ['/'])) style
        = build_import_statement symbol ('/' :: r ++ '/' :: rest) (some ('/' :: r)) style
      ∧ build_import_statement symbol ('/' :: r ++ '/' :: rest) (some (r ++ ['/'])) style
        = build_import_statement symbol ('/' :: r ++ '/' :: rest) (some ('/' :: r)) style
      ∧ build_import_statement symbol ('/' :: r ++ '/' :: rest)
            (some (r.map (fun c => if c = '/' then '.' else c))) style
        = build_import_statement symbol ('/' :: r ++ '/' :: rest) (some ('/' :: r)) style := by
  have hdot' : '.' ∉ '/' :: r := by
    simp [hdot]
  have hA : normalize_root (some ('/' :: r)) = '/' :: r := by
    unfold normalize_root
    rw [Option.getD_some, pyreplace_single_single_of_not_mem _ _ _ hdot',
      ensure_leading_slash_cons]
  have hB : normalize_root (some r) = '/' :: r := by
    unfold normalize_root
    rw [Option.getD_some, pyreplace_single_single_of_not_mem _ _ _ hdot,
      ensure_leading_slash_of_head _ hsl]
  have hC : normalize_root (some ('/' :: r ++ ['/'])) = '/' :: r ++ ['/'] := by
    unfold normalize_root
    rw [Option.getD_some, pyreplace_single_single_of_not_mem _ _ _ (by simp [hdot]),
      List.cons_append, ensure_leading_slash_cons]
  have hD : normalize_root (some (r ++ ['/'])) = '/' :: r ++ ['/'] := by
    unfold normalize_root
    rw [Option.getD_some, pyreplace_single_single_of_not_mem _ _ _ (by simp [hdot]),
      ensure_leading_slash_of_head]
    · rw [List.cons_append]
    · match r, hne with
      | a :: r', _ => simpa using hsl
  have hE : normalize_root (some (r.map (fun c => if c = '/' then '.' else c)))
      = '/' :: r := by
    unfold normalize_root
    rw [Option.getD_some, dotted_roundtrip r hdot, ensure_leading_slash_of_head _ hsl]
  -- both root shapes lead to the same module path
  have hshort : ∀ root₀, normalize_root root₀ = '/' :: r →
      module_path ('/' :: r ++ '/' :: rest) root₀
        = stripDots (pyreplace ['/'] ['.']
            (strip_suffix_token (chars "__init__")
              (strip_suffix_token (chars ".py") ('/' :: rest)))) := by
    intro root₀ h
    unfold module_path
    rw [h]
    simp only [ensure_leading_slash_append]
    have hpre : ('/' :: r).isPrefixOf ('/' :: r ++ '/' :: rest) = true := by
      simp only [List.isPrefixOf_iff_prefix]
      exact ⟨'/' :: rest, by simp⟩
    rw [if_pos hpre]
    have : ('/' :: r ++ '/' :: rest).drop ('/' :: r).length = '/' :: rest :=
      List.drop_left ('/' :: r) ('/' :: rest)
    rw [this]
  have hlong : ∀ root₀, normalize_root root₀ = '/' :: r ++ ['/'] →
      module_path ('/' :: r ++ '/' :: rest) root₀
        = stripDots (pyreplace ['/'] ['.']
            (strip_suffix_token (chars "__init__")
              (strip_suffix_token (chars ".py") rest))) := by
    intro root₀ h
    unfold module_path
    rw [h]
    simp only [ensure_leading_slash_append]
    have hsplit : '/' :: r ++ '/' :: rest = ('/' :: r ++ ['/']) ++ rest := by
      simp
    have hpre : ('/' :: r ++ ['/']).isPrefixOf ('/' :: r ++ '/' :: rest) = true := by
      simp only [List.isPrefixOf_iff_prefix]
      exact ⟨rest, hsplit.symm⟩
    rw [if_pos hpre]
    have : ('/' :: r ++ '/' :: rest).drop ('/' :: r ++ ['/']).length = rest := by
      rw [hsplit]
      exact List.drop_left _ _
    rw [this]
  have hmods : ∀ root₀, (normalize_root root₀ = '/' :: r ∨
      normalize_root root₀ = '/' :: r ++ ['/']) →
      module_path ('/' :: r ++ '/' :: rest) root₀
        = module_path ('/' :: r ++ '/' :: rest) (some ('/' :: r)) := by
    intro root₀ h
    rcases h with h | h
    · rw [hshort _ h, hshort _ hA]
    · rw [hlong _ h, hshort _ hA, module_tail_cons_slash]
  have hbuild : ∀ root₀, (normalize_root root₀ = '/' :: r ∨
      normalize_root root₀ = '/' :: r ++ ['/']) →
      build_import_statement symbol ('/' :: r ++ '/' :: rest) root₀ style
        = build_import_statement symbol ('/' :: r ++ '/' :: rest) (some ('/' :: r)) style := by
    intro root₀ h
    unfold build_import_statement
    rw [hmods _ h]
  exact ⟨hbuild _ (Or.inl hB), hbuild _ (Or.inr hC), hbuild _ (Or.inr hD),
    hbuild _ (Or.inl hE)⟩

/-- C8 amended, at a concrete instance: root `a`, file `/a/b/c.py`. -/
theorem C8_root_normalization_amended_witness :
    build_import_statement (chars "t") ('/' :: chars "a" ++ '/' :: chars "b/c.py")
        (some (chars "a")) .component
      = build_import_statement (chars "t") ('/' :: chars "a" ++ '/' :: chars "b/c.py")
        (some ('/' :: chars "a")) .component :=
  (C8_root_normalization_amended (chars "t") (chars "a") (chars "b/c.py") .component
    (by decide) (by decide) (by decide)).1

/-! Document line classification and the insertion scan. -/

/-- `INDENT_RE`: the line starts with a space or tab. -/
def INDENT_RE (l : List Char) : Bool :=
  match l with
  | [] => false
  | c :: _ => c = ' ' || c = '\t'

/-- `IMPORT_CHECK_SKIP_RE` applied with `re.match`: the line starts with a
whitespace character, `#`, a quote, `__`, `import`, `from`, `try` or
`except`, or is empty. -/
def IMPORT_CHECK_SKIP (l : List Char) : Bool :=
  (match l with
   | [] => true
   | c :: _ => c.isWhitespace || c = '#' || c = squote || c = '"') ||
  (chars "__").isPrefixOf l || (chars "import").isPrefixOf l ||
  (chars "from").isPrefixOf l || (chars "try").isPrefixOf l ||
  (chars "except").isPrefixOf l

/-- `IMPORT_CHECK_VALID_RE` applied with `re.match`. -/
def IMPORT_CHECK_VALID (l : List Char) : Bool :=
  (chars "__").isPrefixOf l || (chars "import").isPrefixOf l ||
  (chars "from").isPrefixOf l

/-- Three double quotes. -/
def tripleDq : List Char := chars "\"\"\""

/-- Three single quotes. -/
def tripleSq : List Char := [squote, squote, squote]

/-- `is_block_comment` from the source. -/
def is_block_comment (line : List Char) : Bool :=
  let l := pystrip line
  (l == tripleDq || (tripleDq.isPrefixOf l && !(tripleDq.isSuffixOf l))) ||
  (l == tripleSq || (tripleSq.isPrefixOf l && !(tripleSq.isSuffixOf l)))

/-! The merge/wrap engine. -/

/-- Split into maximal whitespace-free words (the word structure that
`textwrap` chunks a single-line statement into). -/
def wordsAux : List Char → List Char → List (List Char)
  | [], acc => if acc.isEmpty then [] else [acc.reverse]
  | c :: s, acc =>
    if c.isWhitespace then
      if acc.isEmpty then wordsAux s [] else acc.reverse :: wordsAux s []
    else wordsAux s (c :: acc)

def wordsOf (s : List Char) : List (List Char) := wordsAux s []

/-- Greedily extend a line of current length `cur` with further words,
counting one separating space per word. -/
def greedyTake (width : Nat) : Nat → List (List Char) → List (List Char) × List (List Char)
  | _, [] => ([], [])
  | cur, w :: ws =>
    if cur + 1 + w.length ≤ width then
      let p := greedyTake width (cur + 1 + w.length) ws
      (w :: p.1, p.2)
    else ([], w :: ws)

/-- Lines after the first, each of content width `width` (fuelled; the
fuel is the number of remaining words). -/
def wrapRestFuel (width : Nat) : Nat → List (List Char) → List (List (List Char))
  | 0, _ => []
  | _, [] => []
  | fuel+1, w :: ws =>
    let p := greedyTake width w.length ws
    (w :: p.1) :: wrapRestFuel width fuel p.2

/-- Group words greedily into lines: the first line has content width
`first_width`, later ones `rest_width`. -/
def wrapGroups (first_width rest_width : Nat) (ws : List (List Char)) :
    List (List (List Char)) :=
  match ws with
  | [] => []
  | w :: ws' =>
    let p := greedyTake first_width w.length ws'
    (w :: p.1) :: wrapRestFuel rest_width p.2.length p.2

/-- Model of `textwrap.TextWrapper(width=76, subsequent_indent='    ',
break_long_words=False).wrap`: greedy word wrapping to 76 columns with a
four-space hanging indent (hence 72 columns of content on continuation
lines); a word longer than the line is placed alone on its line, unbroken.
The model works at whole-word granularity and does not represent
`textwrap`'s default `break_on_hyphens=True`, under which a hyphenated
chunk may be split across lines.  It is therefore exact precisely for
inputs whose words are separated by single spaces and contain no hyphens;
every theorem about it restricts the names to that domain (`GoodName`
excludes hyphens). -/
def pywrap (s : List Char) : List (List Char) :=
  match wrapGroups 76 72 (wordsOf s) with
  | [] => []
  | g :: gs =>
    List.intercalate [' '] g ::
      gs.map (fun g' => chars "    " ++ List.intercalate [' '] g')

/-- The merge/wrap step of `insert_import` (source lines 269‑282): append
the symbol, re-render, wrap, and add parentheses or backslashes when the
statement had to be wrapped. -/
def merge_wrap_engine (base : List Char) (comps : List (List Char))
    (symbol existing_import : List Char) : List Char :=
  let new_import_statement :=
    chars "from " ++ base ++ chars " import " ++
      List.intercalate (chars ", ") (comps ++ [symbol])
  let wrapped := pywrap new_import_statement
  let final := List.intercalate ['\n'] wrapped
  if 1 < wrapped.length then
    if '\\' ∈ existing_import then pyreplace ['\n'] (chars " \\\n") final
    else pyreplace (chars "import ") (chars "import (") final ++ [')']
  else final

/-! The scan over the document. -/

/-- Collect the continuation lines of an existing import (source lines
253‑261) and the number of document lines the replacement region spans.
`none` models the `AttributeError` the source raises when the import line
is the very last line of the file. -/
def collectContinuation (l : List Char) (rest : List (List Char)) :
    Option (List Char × Nat) :=
  match rest with
  | [] => none
  | _ =>
    let ind := rest.takeWhile INDENT_RE
    if ind.length < rest.length then some (l ++ ind.flatten, ind.length + 1)
    else some (l ++ ind.flatten, rest.length)

/-- Outcome of the scan loop of `insert_import`. -/
inductive ScanOut
  | dup
  | mergeAlready
  | mergeCrash
  | merge (start : Nat) (count : Nat) (text : List Char)
  | stop (anchor : Option (Nat × List Char))
deriving DecidableEq

/-- Truthiness of the `insert_at` variable: Python's `not insert_at` is
true when it is still `None` or holds an empty region (an empty line). -/
def falsyAnchor : Option (Nat × List Char) → Bool
  | none => true
  | some (_, l) => l.isEmpty

/-- The `if not insert_at: insert_at = region` default of the scan loop. -/
def anchor_default (idx : Nat) (l : List Char) (ia : Option (Nat × List Char)) :
    Option (Nat × List Char) :=
  if falsyAnchor ia then some (idx, l) else ia

/-- The block-comment toggle of the scan loop. -/
def block_update (l : List Char) (b : Bool) : Bool :=
  if is_block_comment l then !b else b

/-- The file-top update of the scan loop (`b` is the already-toggled
block flag). -/
def filetop_update (l : List Char) (b ft : Bool) : Bool :=
  if !b && !((['#'] : List Char).isPrefixOf l) then false else ft

/-- The anchor update inside the skip branch of the scan loop. -/
def anchor_park (idx : Nat) (l : List Char) (b ft : Bool)
    (ia : Option (Nat × List Char)) : Option (Nat × List Char) :=
  if !b && (IMPORT_CHECK_VALID l || ft) then some (idx, l) else ia

/-- The test for an existing import with the same base. -/
def merge_cond (base l : List Char) : Bool :=
  (chars "from " ++ base ++ chars " import").isPrefixOf (pystrip l)

/-- The merge branch of the scan loop (source lines 249‑291), given the
matched line and the rest of the document. -/
def merge_result (symbol : List Char) (idx : Nat) (l : List Char)
    (rest : List (List Char)) : ScanOut :=
  match collectContinuation l rest with
  | none => .mergeCrash
  | some (existing, count) =>
    match split_import_components existing with
    | none => .mergeCrash
    | some (eb, comps) =>
      if symbol ∈ comps then .mergeAlready
      else .merge idx count (merge_wrap_engine eb comps symbol existing)

/-- The scan loop of `insert_import` (source lines 229‑303), one document
line per step, threading the line index, the block-comment flag, the
file-top flag and the insertion anchor. -/
def scanLines (stmt base symbol : List Char) (isComponent : Bool) :
    Nat → Bool → Bool → Option (Nat × List Char) → List (List Char) → ScanOut
  | _, _, _, insert_at, [] => .stop insert_at
  | idx, in_block, file_top, insert_at, l :: rest =>
    if pystrip l = stmt then .dup
    else
      let ia₁ := anchor_default idx l insert_at
      let b := block_update l in_block
      let ft := filetop_update l b file_top
      if isComponent && merge_cond base l then merge_result symbol idx l rest
      else if b || IMPORT_CHECK_SKIP l then
        scanLines stmt base symbol isComponent (idx + 1) b ft
          (anchor_park idx l b ft ia₁) rest
      else .stop ia₁

/-- `paths_equal` from the source: compare a symbol-index path with a view
path, converting the symbol path to Windows form when the view path looks
like a Windows path. -/
def paths_equal (symbol_path view_path : List Char) : Bool :=
  let isWinDrive : Bool :=
    match view_path with
    | c₁ :: c₂ :: c₃ :: _ => (65 ≤ c₁.toNat && c₁.toNat ≤ 90) && c₂ = ':' && c₃ = '\\'
    | _ => false
  if isWinDrive then
    let sp :=
      match symbol_path with
      | '/' :: d :: '/' :: rest =>
        if 65 ≤ d.toNat && d.toNat ≤ 90 then d :: ':' :: '\\' :: rest else symbol_path
      | _ => symbol_path
    (sp.map (fun c => if c = '/' then '\\' else c)) == view_path
  else symbol_path == view_path

/-- The result statuses the command reports through
`sublime.status_message` (plus `crash` for the executions on which the
source raises an exception instead of reaching a status message). -/
inductive Status
  | self_import
  | unsupported_style
  | already_exists
  | merged (symbol : List Char)
  | inserted (stmt : List Char)
  | crash
deriving DecidableEq

/-- `insert_import` from the source, over a document given as its list of
lines; returns the reported status and the document after the call.  The
two `view.replace` calls are modelled as the corresponding line splices:
the merge case replaces the spanned lines by the engine output, the insert
case replaces the anchor line by itself, a newline and the new
statement. -/
def insert_import (full_path file_path relative_path symbol : List Char)
    (root_path : Option (List Char)) (style : ImportStyle)
    (doc : List (List Char)) : Status × List (List Char) :=
  if paths_equal full_path file_path then (.self_import, doc)
  else
    match build_import_statement symbol relative_path root_path style with
    | none => (.unsupported_style, doc)
    | some stmt =>
      match split_import_components stmt with
      | none => (.crash, doc)
      | some (import_base, _) =>
        let isComp : Bool := style = ImportStyle.component
        match scanLines stmt import_base symbol isComp 0 false true none doc with
        | .dup => (.already_exists, doc)
        | .mergeAlready => (.already_exists, doc)
        | .mergeCrash => (.crash, doc)
        | .merge start count text =>
          (.merged symbol,
            doc.take start ++ splitChar '\n' text ++ doc.drop (start + count))
        | .stop none => (.crash, doc)
        | .stop (some (k, l)) =>
          (.inserted stmt,
            doc.take k ++ splitChar '\n' (l ++ '\n' :: stmt) ++ doc.drop (k + 1))

/-- The seven-line document of the anchor-selection claim. -/
def anchorDoc : List (List Char) :=
  [chars "#!shebang", chars "\"\"\"", chars "docstring line", chars "\"\"\"",
    chars "import os", [], chars "x = 1"]

/-- C1: on the shebang/docstring/import document, inserting a fresh
Component-style import (symbol `foo` defined at `/p/q.py`) places the new
statement on a fresh line directly after `import os`, the last valid
anchor before the first real-code line. -/
theorem C1_anchor_selection :
    insert_import (chars "/p/q.py") (chars "/cur.py") (chars "/p/q.py")
        (chars "foo") none .component anchorDoc
      = (.inserted (chars "from p.q import foo"),
          [chars "#!shebang", chars "\"\"\"", chars "docstring line", chars "\"\"\"",
            chars "import os", chars "from p.q import foo", [], chars "x = 1"]) := by
  decide

/-- The two-line document with an existing three-component import. -/
def mergeDoc : List (List Char) :=
  [chars "from x.y import a, b, c", chars "z = 1"]

/-- C3: merging the new symbol `d` into `from x.y import a, b, c`
rewrites exactly that statement to one whose parsed component list is
`[a, b, c, d]`, while merging the already-present `b` reports
`already_exists` and leaves the document untouched. -/
theorem C3_merge_order :
    insert_import (chars "/x/y.py") (chars "/cur.py") (chars "/x/y.py")
        (chars "d") none .component mergeDoc
      = (.merged (chars "d"), [chars "from x.y import a, b, c, d", chars "z = 1"])
      ∧ split_import_components (chars "from x.y import a, b, c, d")
        = some (chars "x.y", [chars "a", chars "b", chars "c", chars "d"])
      ∧ insert_import (chars "/x/y.py") (chars "/cur.py") (chars "/x/y.py")
        (chars "b") none .component mergeDoc
      = (.already_exists, mergeDoc) := by
  refine ⟨by decide, by decide, by decide⟩

/-- C9: one invocation performs at most one mutation: either the document
is returned unchanged (with an `already_exists`, `self_import`,
`unsupported_style` or exception outcome), or the status is `merged` /
`inserted` and the new document replaces exactly one contiguous run of
lines of the old one. -/
theorem C9_single_region (full_path file_path relative_path symbol : List Char)
    (root_path : Option (List Char)) (style : ImportStyle) (doc : List (List Char)) :
    ((insert_import full_path file_path relative_path symbol root_path style doc).2 = doc
        ∧ ((insert_import full_path file_path relative_path symbol root_path style doc).1
              = .already_exists
          ∨ (insert_import full_path file_path relative_path symbol root_path style doc).1
              = .self_import
          ∨ (insert_import full_path file_path relative_path symbol root_path style doc).1
              = .unsupported_style
          ∨ (insert_import full_path file_path relative_path symbol root_path style doc).1
              = .crash))
      ∨ (((insert_import full_path file_path relative_path symbol root_path style doc).1
              = .merged symbol
          ∨ ∃ s, (insert_import full_path file_path relative_path symbol root_path style doc).1
              = .inserted s)
        ∧ ∃ start n repl,
            (insert_import full_path file_path relative_path symbol root_path style doc).2
              = doc.take start ++ repl ++ doc.drop (start + n)) := by
  unfold insert_import
  by_cases h1 : paths_equal full_path file_path
  · simp [h1]
  · rw [if_neg (by simp [h1])]
    cases hb : build_import_statement symbol relative_path root_path style with
    | none => simp
    | some stmt =>
      cases hp : split_import_components stmt with
      | none => simp [hp]
      | some pr =>
        obtain ⟨ib, comps⟩ := pr
        cases hs : scanLines stmt ib symbol (decide (style = ImportStyle.component))
            0 false true none doc with
        | dup => simp [hp, hs]
        | mergeAlready => simp [hp, hs]
        | mergeCrash => simp [hp, hs]
        | merge start count text =>
          right
          refine ⟨Or.inl (by simp [hp, hs]), start, count, splitChar '\n' text,
            by simp [hp, hs]⟩
        | stop anchor =>
          cases anchor with
          | none => simp [hp, hs]
          | some kl =>
            obtain ⟨k, l⟩ := kl
            right
            refine ⟨Or.inr ⟨stmt, by simp [hp, hs]⟩, k, 1,
              splitChar '\n' (l ++ '\n' :: stmt), by simp [hp, hs]⟩

/-- C10: the scan loop tests each line for an exact duplicate of the
target statement before any block-comment toggle or skip classification of
that line, so a duplicate is reported from any scan state — and, end to
end, a duplicate sitting inside a triple-quoted block comment still yields
`already_exists` with no mutation. -/
theorem C10_dup_check_first :
    (∀ (stmt base symbol : List Char) (isComponent : Bool) (idx : Nat)
        (in_block file_top : Bool) (insert_at : Option (Nat × List Char))
        (l : List Char) (rest : List (List Char)),
      pystrip l = stmt →
      scanLines stmt base symbol isComponent idx in_block file_top insert_at (l :: rest)
        = .dup)
    ∧ insert_import (chars "/x/y.py") (chars "/cur.py") (chars "/x/y.py") (chars "d")
        none .component
        [chars "\"\"\"", chars "    from x.y import d", chars "\"\"\"", chars "w = 1"]
      = (.already_exists,
        [chars "\"\"\"", chars "    from x.y import d", chars "\"\"\"", chars "w = 1"]) := by
  constructor
  · intro stmt base symbol isComponent idx in_block file_top insert_at l rest h
    rw [scanLines, if_pos h]
  · decide

/-- C10 at a concrete scan state: the duplicate test fires even with the
block-comment flag set and on an indented line. -/
theorem C10_dup_check_first_witness :
    scanLines (chars "from a import b") (chars "a") (chars "b") true 5 true false none
      [chars "  from a import b  ", chars "x"] = .dup :=
  C10_dup_check_first.1 _ _ _ _ _ _ _ _ _ _ (by decide)

/-! Pure recomputation of the scan state over a prefix of the document,
used to state invariants of the scan loop. -/

/-- One step of the block/file-top state, as the scan loop performs it. -/
def scanStep (st : Bool × Bool) (l : List Char) : Bool × Bool :=
  let b := block_update l st.1
  (b, filetop_update l b st.2)

/-- The `(in_block, file_top)` state after processing the given lines. -/
def scanFlags (ls : List (List Char)) : Bool × Bool :=
  ls.foldl scanStep (false, true)

/-- The block-comment flag after processing the given lines. -/
def blockStateAfter (ls : List (List Char)) : Bool := (scanFlags ls).1

/-- The file-top flag after processing the given lines. -/
def fileTopAfter (ls : List (List Char)) : Bool := (scanFlags ls).2

theorem scanFlags_append (xs ys : List (List Char)) :
    scanFlags (xs ++ ys) = ys.foldl scanStep (scanFlags xs) := by
  simp [scanFlags, List.foldl_append]

theorem blockStateAfter_snoc (ls : List (List Char)) (l : List Char) :
    blockStateAfter (ls ++ [l]) = block_update l (blockStateAfter ls) := by
  simp [blockStateAfter, scanFlags_append, List.foldl_cons, scanStep]

theorem fileTopAfter_snoc (ls : List (List Char)) (l : List Char) :
    fileTopAfter (ls ++ [l])
      = filetop_update l (block_update l (blockStateAfter ls)) (fileTopAfter ls) := by
  simp [fileTopAfter, blockStateAfter, scanFlags_append, List.foldl_cons, scanStep]

/-- Once the file-top flag is false it stays false. -/
theorem fileTop_false_absorb (ys : List (List Char)) :
    ∀ st : Bool × Bool, st.2 = false → (ys.foldl scanStep st).2 = false := by
  induction ys with
  | nil => intro st h; exact h
  | cons y ys ih =>
    intro st h
    rw [List.foldl_cons]
    apply ih
    show filetop_update y (block_update y st.1) st.2 = false
    unfold filetop_update
    by_cases hc : (!block_update y st.1 && !((['#'] : List Char).isPrefixOf y)) = true
    · rw [if_pos hc]
    · rw [if_neg hc]
      exact h

theorem fileTopAfter_mono (xs ys : List (List Char)) :
    fileTopAfter (xs ++ ys) = true → fileTopAfter xs = true := by
  intro h
  by_contra hne
  have hfalse : fileTopAfter xs = false := by
    cases hx : fileTopAfter xs
    · rfl
    · exact absurd hx hne
  have := fileTop_false_absorb ys (scanFlags xs) hfalse
  rw [fileTopAfter, scanFlags_append] at h
  rw [h] at this
  exact Bool.noConfusion this

/-- The property the claim asserts of a comment-line anchor: if the
anchored line is a `#` comment then, up to that line, the file consisted
only of comment material (file-top still set) or only of empty lines. -/
def AnchorOK (doc : List (List Char)) : Option (Nat × List Char) → Prop
  | none => True
  | some (k, l) =>
      (['#'] : List Char).isPrefixOf l = true →
      fileTopAfter (doc.take k) = true ∨ ∀ x ∈ doc.take k, x = []

/-- A line starting with `#` never matches `IMPORT_CHECK_VALID_RE`. -/
theorem hash_not_valid (l : List Char)
    (h : (['#'] : List Char).isPrefixOf l = true) :
    IMPORT_CHECK_VALID l = false := by
  match l with
  | [] => exact absurd h (by decide)
  | c :: t =>
    rw [isPrefixOf_single] at h
    have hc : c = '#' := (beq_iff_eq.1 h).symm
    subst hc
    have h1 : chars "__" = '_' :: ['_'] := rfl
    have h2 : chars "import" = 'i' :: ['m', 'p', 'o', 'r', 't'] := rfl
    have h3 : chars "from" = 'f' :: ['r', 'o', 'm'] := rfl
    simp [IMPORT_CHECK_VALID, h1, h2, h3, List.isPrefixOf]

/-- On an empty line the park condition of the skip branch is false
whatever the state: the anchor never parks on an empty line. -/
theorem park_cond_nil (b ft : Bool) :
    (!(block_update [] b)
        && (IMPORT_CHECK_VALID []
          || filetop_update [] (block_update [] b) ft)) = false := by
  cases b <;> cases ft <;> decide

/-- Invariant of the scan loop: starting from a state that matches the
pure recomputation on the consumed prefix, a `stop` outcome carries an
anchor satisfying `AnchorOK`. -/
theorem scan_stop_anchorOK (stmt base symbol : List Char) (isComp : Bool)
    (doc : List (List Char)) :
    ∀ (ls : List (List Char)) (idx : Nat) (ia : Option (Nat × List Char))
      (k : Nat) (l : List Char),
      doc.drop idx = ls →
      (falsyAnchor ia = true → ∀ x ∈ doc.take idx, x = []) →
      AnchorOK doc ia →
      scanLines stmt base symbol isComp idx (blockStateAfter (doc.take idx))
          (fileTopAfter (doc.take idx)) ia ls = .stop (some (k, l)) →
      AnchorOK doc (some (k, l)) := by
  intro ls
  induction ls with
  | nil =>
    intro idx ia k l _ _ hok h
    rw [scanLines] at h
    injection h with h
    exact h ▸ hok
  | cons l₀ ls' ih =>
    intro idx ia k l hdrop hfal hok h
    -- the document's prefix grows by the processed line
    have hcons : doc = doc.take idx ++ l₀ :: ls' := by
      conv_lhs => rw [← List.take_append_drop idx doc]
      rw [hdrop]
    have hidxlt : idx < doc.length := by
      by_contra hh
      push_neg at hh
      rw [List.drop_eq_nil_of_le hh] at hdrop
      exact List.noConfusion hdrop
    have hlen : (doc.take idx).length = idx := by
      rw [List.length_take]
      omega
    have htake : doc.take (idx + 1) = doc.take idx ++ [l₀] := by
      conv_lhs => rw [hcons]
      rw [show idx + 1 = (doc.take idx).length + 1 by rw [hlen], List.take_append]
      rfl
    have hdrop' : doc.drop (idx + 1) = ls' := by
      have h2 : (doc.drop idx).drop 1 = doc.drop (idx + 1) := List.drop_drop 1 idx doc
      rw [← h2, hdrop]
      rfl
    rw [scanLines] at h
    by_cases hdup : pystrip l₀ = stmt
    · rw [if_pos hdup] at h
      exact ScanOut.noConfusion h
    rw [if_neg hdup] at h
    simp only [] at h
    -- names for the updated pieces of state
    set ia₁ := anchor_default idx l₀ ia with hia₁
    set b := block_update l₀ (blockStateAfter (doc.take idx)) with hb
    set ft := filetop_update l₀ b (fileTopAfter (doc.take idx)) with hft
    have hbval : b = blockStateAfter (doc.take (idx + 1)) := by
      rw [htake, blockStateAfter_snoc]
    have hftval : ft = fileTopAfter (doc.take (idx + 1)) := by
      rw [htake, fileTopAfter_snoc, ← hb]
    -- the anchor after default and park updates
    set ia₂ := anchor_park idx l₀ b ft ia₁ with hia₂
    have hok₁ : AnchorOK doc ia₁ := by
      rw [hia₁]
      unfold anchor_default
      by_cases hfa : falsyAnchor ia = true
      · rw [if_pos hfa]
        intro _
        exact Or.inr (hfal hfa)
      · rw [if_neg hfa]
        exact hok
    have hfal₁ : falsyAnchor ia₁ = true → ∀ x ∈ doc.take (idx + 1), x = [] := by
      rw [hia₁]
      unfold anchor_default
      by_cases hfa : falsyAnchor ia = true
      · rw [if_pos hfa]
        intro hf x hx
        have hl₀ : l₀ = [] := by
          simpa [falsyAnchor] using hf
        rw [htake] at hx
        rcases List.mem_append.1 hx with hx | hx
        · exact hfal hfa x hx
        · simp only [List.mem_singleton] at hx
          rw [hx, hl₀]
      · rw [if_neg hfa]
        intro hf
        exact absurd hf hfa
    have hok₂ : AnchorOK doc ia₂ := by
      rw [hia₂]
      unfold anchor_park
      by_cases hpk : (!b && (IMPORT_CHECK_VALID l₀ || ft)) = true
      · rw [if_pos hpk]
        intro hash
        left
        have hnv : IMPORT_CHECK_VALID l₀ = false := hash_not_valid l₀ hash
        have hftt : ft = true := by
          rw [Bool.and_eq_true, Bool.or_eq_true] at hpk
          rcases hpk.2 with hv | hftt
          · rw [hnv] at hv
            exact Bool.noConfusion hv
          · exact hftt
        have : fileTopAfter (doc.take (idx + 1)) = true := by
          rw [← hftval]; exact hftt
        rw [htake] at this
        exact fileTopAfter_mono _ _ this
      · rw [if_neg hpk]
        exact hok₁
    have hfal₂ : falsyAnchor ia₂ = true → ∀ x ∈ doc.take (idx + 1), x = [] := by
      rw [hia₂]
      unfold anchor_park
      by_cases hpk : (!b && (IMPORT_CHECK_VALID l₀ || ft)) = true
      · rw [if_pos hpk]
        intro hf
        have hl₀ : l₀ = [] := by
          simpa [falsyAnchor] using hf
        subst hl₀
        rw [hft, hb] at hpk
        rw [park_cond_nil (blockStateAfter (doc.take idx))
          (fileTopAfter (doc.take idx))] at hpk
        exact Bool.noConfusion hpk
      · rw [if_neg hpk]
        exact hfal₁
    by_cases hmc : (isComp && merge_cond base l₀) = true
    · rw [if_pos hmc] at h
      unfold merge_result at h
      cases hc : collectContinuation l₀ ls' with
      | none =>
        rw [hc] at h
        exact ScanOut.noConfusion h
      | some pr =>
        obtain ⟨existing, count⟩ := pr
        rw [hc] at h
        dsimp only at h
        cases hsx : split_import_components existing with
        | none =>
          rw [hsx] at h
          exact ScanOut.noConfusion h
        | some pr₂ =>
          obtain ⟨eb, cs⟩ := pr₂
          rw [hsx] at h
          dsimp only at h
          by_cases hmem : symbol ∈ cs
          · rw [if_pos hmem] at h
            exact ScanOut.noConfusion h
          · rw [if_neg hmem] at h
            exact ScanOut.noConfusion h
    · rw [if_neg hmc] at h
      by_cases hsk : (b || IMPORT_CHECK_SKIP l₀) = true
      · rw [if_pos hsk] at h
        rw [hbval, hftval] at h
        exact ih (idx + 1) ia₂ k l hdrop' hfal₂ hok₂ h
      · rw [if_neg hsk] at h
        injection h with h
        exact h ▸ hok₁

/-- C7: (i) whenever the scan ends by inserting after a line that starts
with `#`, the document up to that line was only comment material (the
file-top flag never fell) or only empty lines — so a new import is never
placed below a comment block that follows real code; (ii) a file-top flag
that survived a prefix means every line of that prefix starts with `#` or
is block-comment material; (iii) on a file that starts with a comment
block, the import is inserted directly below that block. -/
theorem C7_comment_anchor :
    (∀ (stmt base symbol : List Char) (isComp : Bool) (doc : List (List Char))
        (k : Nat) (l : List Char),
      scanLines stmt base symbol isComp 0 false true none doc = .stop (some (k, l)) →
      (['#'] : List Char).isPrefixOf l = true →
      fileTopAfter (doc.take k) = true ∨ ∀ x ∈ doc.take k, x = [])
    ∧ (∀ (pre post : List (List Char)) (l : List Char),
        fileTopAfter (pre ++ l :: post) = true →
        (['#'] : List Char).isPrefixOf l = true
          ∨ block_update l (blockStateAfter pre) = true)
    ∧ insert_import (chars "/p/q.py") (chars "/cur.py") (chars "/p/q.py")
        (chars "foo") none .component
        [chars "# header", chars "# more", chars "x = 1"]
      = (.inserted (chars "from p.q import foo"),
          [chars "# header", chars "# more", chars "from p.q import foo",
            chars "x = 1"]) := by
  refine ⟨?_, ?_, by decide⟩
  · intro stmt base symbol isComp doc k l hscan hash
    have h0 : doc.drop 0 = doc := rfl
    have h1 : blockStateAfter (doc.take 0) = false := rfl
    have h2 : fileTopAfter (doc.take 0) = true := rfl
    have := scan_stop_anchorOK stmt base symbol isComp doc doc 0 none k l h0
      (by intro _ x hx; simp at hx) trivial (by rw [h1, h2]; exact hscan)
    exact this hash
  · intro pre post l h
    have hsplit : pre ++ l :: post = (pre ++ [l]) ++ post := by simp
    rw [hsplit] at h
    have h' := fileTopAfter_mono (pre ++ [l]) post h
    rw [fileTopAfter_snoc] at h'
    unfold filetop_update at h'
    by_cases hc : (!block_update l (blockStateAfter pre)
        && !((['#'] : List Char).isPrefixOf l)) = true
    · rw [if_pos hc] at h'
      exact Bool.noConfusion h'
    · cases hbu : block_update l (blockStateAfter pre) with
      | true => exact Or.inr rfl
      | false =>
        cases hhp : (['#'] : List Char).isPrefixOf l with
        | true => exact Or.inl rfl
        | false =>
          exfalso
          apply hc
          rw [hbu, hhp]
          rfl

/-- C7 at a concrete instance: the scan over `["# a", "x = 1"]` anchors at
the leading comment with the file-top flag intact. -/
theorem C7_comment_anchor_witness :
    fileTopAfter (([chars "# a", chars "x = 1"] : List (List Char)).take 0) = true
      ∨ ∀ x ∈ ([chars "# a", chars "x = 1"] : List (List Char)).take 0, x = [] :=
  C7_comment_anchor.1 (chars "s") (chars "b") (chars "y") true
    [chars "# a", chars "x = 1"] 0 (chars "# a") (by decide) (by decide)

/-! Lemmas for the duplicate-guard claim. -/

/-- Splitting a string without the separator gives one piece. -/
theorem splitChar_of_not_mem (c : Char) (x : List Char) (h : c ∉ x) :
    splitChar c x = [x] := by
  induction x with
  | nil => rfl
  | cons a x ih =>
    have ha : a ≠ c := fun hh => h (hh ▸ List.mem_cons_self a x)
    have hx : c ∉ x := fun hh => h (List.mem_cons_of_mem a hh)
    rw [splitChar, if_neg ha, ih hx]
    rfl

/-- Splitting at the single separator occurrence between two clean
parts. -/
theorem splitChar_append_sep (c : Char) (x y : List Char) (hx : c ∉ x) :
    splitChar c (x ++ c :: y) = x :: splitChar c y := by
  induction x with
  | nil => simp [splitChar]
  | cons a x ih =>
    have ha : a ≠ c := fun hh => hx (hh ▸ List.mem_cons_self a x)
    have hx' : c ∉ x := fun hh => hx (List.mem_cons_of_mem a hh)
    rw [List.cons_append, splitChar, if_neg ha, ih hx']
    rfl

/-- Decompose a document around a line obtained by `drop`. -/
theorem drop_cons_split (doc : List (List Char)) (idx : Nat) (l₀ : List Char)
    (ls' : List (List Char)) (hdrop : doc.drop idx = l₀ :: ls') :
    doc[idx]? = some l₀ ∧ doc.take (idx + 1) = doc.take idx ++ [l₀]
      ∧ doc.drop (idx + 1) = ls' := by
  have hidxlt : idx < doc.length := by
    by_contra hh
    push_neg at hh
    rw [List.drop_eq_nil_of_le hh] at hdrop
    exact List.noConfusion hdrop
  have hlen : (doc.take idx).length = idx := by
    rw [List.length_take]
    omega
  have hcons : doc = doc.take idx ++ l₀ :: ls' := by
    conv_lhs => rw [← List.take_append_drop idx doc]
    rw [hdrop]
  refine ⟨?_, ?_, ?_⟩
  · conv_lhs => rw [hcons]
    rw [List.getElem?_append_right (by omega), hlen]
    simp
  · conv_lhs => rw [hcons]
    rw [show idx + 1 = (doc.take idx).length + 1 by rw [hlen], List.take_append]
    rfl
  · have h2 : (doc.drop idx).drop 1 = doc.drop (idx + 1) := List.drop_drop 1 idx doc
    rw [← h2, hdrop]
    rfl

/-- If the scan meets a line whose stripped text equals the statement and
no earlier unprocessed line is a merge trigger or a terminal line, its
outcome is `dup`, whatever the anchor state. -/
theorem scan_reaches_dup (stmt base symbol : List Char) (isComp : Bool)
    (doc : List (List Char)) :
    ∀ (ls : List (List Char)) (idx : Nat) (ia : Option (Nat × List Char))
      (k : Nat) (lk : List Char),
      doc.drop idx = ls → idx ≤ k →
      doc[k]? = some lk → pystrip lk = stmt →
      (∀ j lj, idx ≤ j → j < k → doc[j]? = some lj →
        ((isComp && merge_cond base lj) = false
          ∧ (blockStateAfter (doc.take (j + 1)) || IMPORT_CHECK_SKIP lj) = true)) →
      scanLines stmt base symbol isComp idx (blockStateAfter (doc.take idx))
          (fileTopAfter (doc.take idx)) ia ls = .dup := by
  intro ls
  induction ls with
  | nil =>
    intro idx ia k lk hdrop hik hk _ _
    exfalso
    have hle : doc.length ≤ idx := List.drop_eq_nil_iff.1 hdrop
    rw [List.getElem?_eq_none (by omega)] at hk
    exact Option.noConfusion hk
  | cons l₀ ls' ih =>
    intro idx ia k lk hdrop hik hk hdupk hmid
    obtain ⟨hget, htake, hdrop'⟩ := drop_cons_split doc idx l₀ ls' hdrop
    rw [scanLines]
    by_cases hd : pystrip l₀ = stmt
    · rw [if_pos hd]
    · rw [if_neg hd]
      have hlt : idx < k := by
        rcases Nat.lt_or_ge idx k with hlt | hge
        · exact hlt
        · exfalso
          have : idx = k := Nat.le_antisymm hik hge
          subst this
          rw [hget] at hk
          injection hk with hk
          exact hd (hk ▸ hdupk)
      have hfacts := hmid idx l₀ (Nat.le_refl _) hlt hget
      have hb' : block_update l₀ (blockStateAfter (doc.take idx))
          = blockStateAfter (doc.take (idx + 1)) := by
        rw [htake, blockStateAfter_snoc]
      have hft' : filetop_update l₀ (block_update l₀ (blockStateAfter (doc.take idx)))
            (fileTopAfter (doc.take idx))
          = fileTopAfter (doc.take (idx + 1)) := by
        rw [htake, fileTopAfter_snoc]
      rw [hfacts.1]
      simp only [Bool.false_eq_true, if_false]
      rw [hft', hb']
      rw [if_pos (by rw [hfacts.2])]
      exact ih (idx + 1) _ k lk hdrop' (by omega) hk hdupk
        (fun j lj hj1 hj2 hj3 => hmid j lj (by omega) hj2 hj3)

/-- A `stop` outcome of the scan started with no anchor yields an anchor
that is a document line, every line strictly before which was processed
as a non-merging skip line. -/
theorem scan_stop_prefix_facts (stmt base symbol : List Char) (isComp : Bool)
    (doc : List (List Char)) :
    ∀ (ls : List (List Char)) (idx : Nat) (ia : Option (Nat × List Char))
      (k₀ : Nat) (al : List Char),
      doc.drop idx = ls →
      (∀ j lj, j < idx → doc[j]? = some lj →
        ((isComp && merge_cond base lj) = false
          ∧ (blockStateAfter (doc.take (j + 1)) || IMPORT_CHECK_SKIP lj) = true)) →
      (∀ k' l', ia = some (k', l') → k' < idx ∧ doc[k']? = some l') →
      scanLines stmt base symbol isComp idx (blockStateAfter (doc.take idx))
          (fileTopAfter (doc.take idx)) ia ls = .stop (some (k₀, al)) →
      doc[k₀]? = some al ∧
        ∀ j lj, j < k₀ → doc[j]? = some lj →
          ((isComp && merge_cond base lj) = false
            ∧ (blockStateAfter (doc.take (j + 1)) || IMPORT_CHECK_SKIP lj) = true) := by
  intro ls
  induction ls with
  | nil =>
    intro idx ia k₀ al _ hproc hia h
    rw [scanLines] at h
    injection h with h
    obtain ⟨hk, hget⟩ := hia k₀ al h
    exact ⟨hget, fun j lj hj hgj => hproc j lj (by omega) hgj⟩
  | cons l₀ ls' ih =>
    intro idx ia k₀ al hdrop hproc hia h
    obtain ⟨hget, htake, hdrop'⟩ := drop_cons_split doc idx l₀ ls' hdrop
    rw [scanLines] at h
    by_cases hd : pystrip l₀ = stmt
    · rw [if_pos hd] at h
      exact ScanOut.noConfusion h
    rw [if_neg hd] at h
    set ia₁ := anchor_default idx l₀ ia with hia₁
    set b := block_update l₀ (blockStateAfter (doc.take idx)) with hb
    set ft := filetop_update l₀ b (fileTopAfter (doc.take idx)) with hft
    have hia₁fact : ∀ k' l', ia₁ = some (k', l') → k' < idx + 1 ∧ doc[k']? = some l' := by
      intro k' l' hh
      rw [hia₁] at hh
      unfold anchor_default at hh
      split at hh
      · injection hh with hh
        injection hh with hh1 hh2
        exact ⟨by omega, by rw [← hh1, ← hh2]; exact hget⟩
      · obtain ⟨hlt, hg⟩ := hia k' l' hh
        exact ⟨by omega, hg⟩
    by_cases hmc : (isComp && merge_cond base l₀) = true
    · rw [if_pos hmc] at h
      unfold merge_result at h
      cases hc : collectContinuation l₀ ls' with
      | none =>
        rw [hc] at h
        exact ScanOut.noConfusion h
      | some pr =>
        obtain ⟨existing, count⟩ := pr
        rw [hc] at h
        dsimp only at h
        cases hsx : split_import_components existing with
        | none =>
          rw [hsx] at h
          exact ScanOut.noConfusion h
        | some pr₂ =>
          obtain ⟨eb, cs⟩ := pr₂
          rw [hsx] at h
          dsimp only at h
          by_cases hmem : symbol ∈ cs
          · rw [if_pos hmem] at h
            exact ScanOut.noConfusion h
          · rw [if_neg hmem] at h
            exact ScanOut.noConfusion h
    · rw [if_neg hmc] at h
      have hmcf : (isComp && merge_cond base l₀) = false := by
        cases hx : (isComp && merge_cond base l₀) with
        | false => rfl
        | true => exact absurd hx hmc
      by_cases hsk : (b || IMPORT_CHECK_SKIP l₀) = true
      · rw [if_pos hsk] at h
        have hproc' : ∀ j lj, j < idx + 1 → doc[j]? = some lj →
            ((isComp && merge_cond base lj) = false
              ∧ (blockStateAfter (doc.take (j + 1)) || IMPORT_CHECK_SKIP lj) = true) := by
          intro j lj hj hgj
          by_cases hji : j = idx
          · subst hji
            rw [hget] at hgj
            injection hgj with hgj
            subst hgj
            refine ⟨hmcf, ?_⟩
            rw [htake, blockStateAfter_snoc, ← hb]
            exact hsk
          · exact hproc j lj (by omega) hgj
        have hbv : b = blockStateAfter (doc.take (idx + 1)) := by
          rw [htake, blockStateAfter_snoc]
        have hfv2 : filetop_update l₀ (blockStateAfter (doc.take (idx + 1)))
            (fileTopAfter (doc.take idx)) = fileTopAfter (doc.take (idx + 1)) := by
          rw [htake, blockStateAfter_snoc, fileTopAfter_snoc]
        rw [hbv] at h
        rw [hfv2] at h
        exact ih (idx + 1) _ k₀ al hdrop' hproc'
          (by
            intro k' l' hh
            unfold anchor_park at hh
            split at hh
            · injection hh with hh
              injection hh with hh1 hh2
              exact ⟨by omega, by rw [← hh1, ← hh2]; exact hget⟩
            · exact hia₁fact k' l' hh)
          h
      · rw [if_neg hsk] at h
        injection h with h
        obtain ⟨hlt, hg⟩ := hia₁fact k₀ al h
        refine ⟨hg, fun j lj hj hgj => ?_⟩
        exact hproc j lj (by omega) hgj

/-- C6 (counterexample): inserting the same symbol and path twice is not
idempotent — on the all-code document `["x = 1"]` both runs report
`inserted` and the second run mutates the document again, because the scan
stops at the real-code first line without ever reaching the duplicate
below it; likewise a document that already contains the statement verbatim
on its second line is merged (mutated) rather than reported as
`already_exists`, because the mergeable first line wins. -/
theorem C6_counterexample :
    insert_import (chars "/p/q.py") (chars "/cur.py") (chars "/p/q.py") (chars "foo")
        none .component [chars "x = 1"]
      = (.inserted (chars "from p.q import foo"),
          [chars "x = 1", chars "from p.q import foo"])
      ∧ insert_import (chars "/p/q.py") (chars "/cur.py") (chars "/p/q.py") (chars "foo")
        none .component [chars "x = 1", chars "from p.q import foo"]
      = (.inserted (chars "from p.q import foo"),
          [chars "x = 1", chars "from p.q import foo", chars "from p.q import foo"])
      ∧ insert_import (chars "/x/y.py") (chars "/cur.py") (chars "/x/y.py") (chars "d")
        none .component [chars "from x.y import a", chars "from x.y import d"]
      = (.merged (chars "d"),
          [chars "from x.y import a, d", chars "from x.y import d"]) := by
  refine ⟨by decide, by decide, by decide⟩

/-- C6 (amended): (A) if the scan reaches a line whose stripped text
equals the target statement — every earlier line being neither a same-base
merge trigger nor a scan-terminating real-code line — the result is
`already_exists` and the document is unchanged; (B) inserting the same
symbol and path twice yields `inserted` and then `already_exists` with no
second mutation, provided the anchor line of the first insertion is itself
a skippable, non-mergeable line (when the statement is instead inserted
below the real-code fallback line, the scan never reaches the duplicate
and a second insertion inserts again). -/
theorem C6_duplicate_guard_amended
    (full_path file_path relative_path symbol stmt ib : List Char)
    (root_path : Option (List Char)) (style : ImportStyle)
    (cs : List (List Char))
    (hpe : paths_equal full_path file_path = false)
    (hbuild : build_import_statement symbol relative_path root_path style = some stmt)
    (hparse : split_import_components stmt = some (ib, cs)) :
    (∀ (doc : List (List Char)) (k : Nat) (lk : List Char),
      doc[k]? = some lk → pystrip lk = stmt →
      (∀ j lj, j < k → doc[j]? = some lj →
        ((decide (style = ImportStyle.component) && merge_cond ib lj) = false
          ∧ (blockStateAfter (doc.take (j + 1)) || IMPORT_CHECK_SKIP lj) = true)) →
      insert_import full_path file_path relative_path symbol root_path style doc
        = (.already_exists, doc))
    ∧ (∀ (doc : List (List Char)) (k₀ : Nat) (al : List Char),
      scanLines stmt ib symbol (decide (style = ImportStyle.component))
          0 false true none doc = .stop (some (k₀, al)) →
      ('\n' : Char) ∉ al → ('\n' : Char) ∉ stmt → pystrip stmt = stmt →
      (decide (style = ImportStyle.component) && merge_cond ib al) = false →
      (blockStateAfter (doc.take (k₀ + 1)) || IMPORT_CHECK_SKIP al) = true →
      insert_import full_path file_path relative_path symbol root_path style doc
          = (.inserted stmt, doc.take k₀ ++ [al, stmt] ++ doc.drop (k₀ + 1))
        ∧ insert_import full_path file_path relative_path symbol root_path style
            (doc.take k₀ ++ [al, stmt] ++ doc.drop (k₀ + 1))
          = (.already_exists, doc.take k₀ ++ [al, stmt] ++ doc.drop (k₀ + 1))) := by
  constructor
  · intro doc k lk hk hdup hmid
    have hscan := scan_reaches_dup stmt ib symbol
      (decide (style = ImportStyle.component)) doc doc 0 none k lk rfl
      (Nat.zero_le _) hk hdup (fun j lj _ hj2 hj3 => hmid j lj hj2 hj3)
    rw [show blockStateAfter (doc.take 0) = false from rfl,
      show fileTopAfter (doc.take 0) = true from rfl] at hscan
    unfold insert_import
    rw [if_neg (by simp [hpe]), hbuild]
    dsimp only
    rw [hparse]
    dsimp only
    rw [hscan]
  · intro doc k₀ al hscan hnl_al hnl_stmt hstrip hmal htal
    have hfacts := scan_stop_prefix_facts stmt ib symbol
      (decide (style = ImportStyle.component)) doc doc 0 none k₀ al rfl
      (fun j lj hj _ => absurd hj (Nat.not_lt_zero j))
      (fun k' l' hh => Option.noConfusion hh)
      (by
        rw [show blockStateAfter (doc.take 0) = false from rfl,
          show fileTopAfter (doc.take 0) = true from rfl]
        exact hscan)
    obtain ⟨hal, hpre⟩ := hfacts
    have hk₀lt : k₀ < doc.length := by
      rcases List.getElem?_eq_some_iff.1 hal with ⟨h, _⟩
      exact h
    have hlenA : (doc.take k₀).length = k₀ := by
      rw [List.length_take]
      omega
    have hsplitc : splitChar '\n' (al ++ '\n' :: stmt) = [al, stmt] := by
      rw [splitChar_append_sep '\n' al stmt hnl_al,
        splitChar_of_not_mem '\n' stmt hnl_stmt]
    have hrun1 : insert_import full_path file_path relative_path symbol root_path
        style doc = (.inserted stmt, doc.take k₀ ++ [al, stmt] ++ doc.drop (k₀ + 1)) := by
      unfold insert_import
      rw [if_neg (by simp [hpe]), hbuild]
      dsimp only
      rw [hparse]
      dsimp only
      rw [hscan]
      dsimp only
      rw [hsplitc]
    refine ⟨hrun1, ?_⟩
    -- the document after the first insertion
    set doc₁ := doc.take k₀ ++ [al, stmt] ++ doc.drop (k₀ + 1) with hdoc₁
    have hdoc₁' : doc₁ = doc.take k₀ ++ ([al, stmt] ++ doc.drop (k₀ + 1)) := by
      rw [hdoc₁, List.append_assoc]
    -- line lookups in the new document
    have hg_lt : ∀ j, j < k₀ → doc₁[j]? = doc[j]? := by
      intro j hj
      rw [hdoc₁', List.getElem?_append_left (by rw [hlenA]; omega)]
      rw [List.getElem?_take_of_lt hj]
    have hg_k₀ : doc₁[k₀]? = some al := by
      rw [hdoc₁', List.getElem?_append_right (by rw [hlenA]), hlenA]
      simp
    have hg_k₁ : doc₁[k₀ + 1]? = some stmt := by
      rw [hdoc₁', List.getElem?_append_right (by rw [hlenA]; omega), hlenA]
      simp
    -- prefixes of the new document agree with the old one
    have htk_le : ∀ m, m ≤ k₀ → doc₁.take m = doc.take m := by
      intro m hm
      rw [hdoc₁', List.take_append_of_le_length (by rw [hlenA]; exact hm),
        List.take_take]
      congr 1
      omega
    have htk_succ : doc₁.take (k₀ + 1) = doc.take (k₀ + 1) := by
      have h1 : doc₁.take (k₀ + 1) = doc.take k₀ ++ [al] := by
        rw [hdoc₁', show k₀ + 1 = (doc.take k₀).length + 1 by rw [hlenA],
          List.take_append]
        rfl
      have h2 : doc.take (k₀ + 1) = doc.take k₀ ++ [al] := by
        rw [List.take_succ, hal]
        rfl
      rw [h1, h2]
    -- the second scan reaches the duplicate line
    have hscan₂ : scanLines stmt ib symbol (decide (style = ImportStyle.component))
        0 false true none doc₁ = .dup := by
      have := scan_reaches_dup stmt ib symbol
        (decide (style = ImportStyle.component)) doc₁ doc₁ 0 none (k₀ + 1) stmt rfl
        (Nat.zero_le _) hg_k₁ hstrip
        (by
          intro j lj _ hj2 hgj
          by_cases hjk : j = k₀
          · subst hjk
            rw [hg_k₀] at hgj
            injection hgj with hgj
            subst hgj
            rw [htk_succ]
            exact ⟨hmal, htal⟩
          · have hjlt : j < k₀ := by omega
            rw [hg_lt j hjlt] at hgj
            have := hpre j lj hjlt hgj
            rw [show doc₁.take (j + 1) = doc.take (j + 1) from htk_le (j + 1) (by omega)]
            exact this)
      rw [show blockStateAfter (doc₁.take 0) = false from rfl,
        show fileTopAfter (doc₁.take 0) = true from rfl] at this
      exact this
    unfold insert_import
    rw [if_neg (by simp [hpe]), hbuild]
    dsimp only
    rw [hparse]
    dsimp only
    rw [hscan₂]

/-- C6 amended, at a concrete instance: on `["import os", "x = 1"]` the
first insertion lands after `import os` and the second reports
`already_exists` without touching the document. -/
theorem C6_duplicate_guard_amended_witness :
    insert_import (chars "/p/q.py") (chars "/cur.py") (chars "/p/q.py") (chars "foo")
        none .component [chars "import os", chars "x = 1"]
      = (.inserted (chars "from p.q import foo"),
          ([chars "import os", chars "x = 1"] : List (List Char)).take 0
            ++ [chars "import os", chars "from p.q import foo"]
            ++ ([chars "import os", chars "x = 1"] : List (List Char)).drop (0 + 1))
    ∧ insert_import (chars "/p/q.py") (chars "/cur.py") (chars "/p/q.py") (chars "foo")
        none .component
        (([chars "import os", chars "x = 1"] : List (List Char)).take 0
          ++ [chars "import os", chars "from p.q import foo"]
          ++ ([chars "import os", chars "x = 1"] : List (List Char)).drop (0 + 1))
      = (.already_exists,
          ([chars "import os", chars "x = 1"] : List (List Char)).take 0
            ++ [chars "import os", chars "from p.q import foo"]
            ++ ([chars "import os", chars "x = 1"] : List (List Char)).drop (0 + 1)) :=
  (C6_duplicate_guard_amended (chars "/p/q.py") (chars "/cur.py") (chars "/p/q.py")
      (chars "foo") (chars "from p.q import foo") (chars "p.q") none .component
      [chars "foo"] (by decide) (by decide) (by decide)).2
    [chars "import os", chars "x = 1"] 0 (chars "import os")
    (by decide) (by decide) (by decide) (by decide) (by decide) (by decide)

/-! String-overlap toolkit for the merge/wrap claim: the separator
`import` has no nontrivial border, so its occurrences in the texts the
engine builds can be located exactly. -/

/-- A pattern with no nonempty proper border (prefix that is also a
suffix). -/
def Unbordered (sep : List Char) : Prop :=
  ∀ k, 0 < k → k < sep.length → sep.take k ≠ sep.drop (sep.length - k)

theorem unbordered_import : Unbordered (chars "import") := by
  intro k h1 h2
  have : k < 6 := h2
  interval_cases k <;> decide

theorem unbordered_import_space : Unbordered (chars "import ") := by
  intro k h1 h2
  have : k < 7 := h2
  interval_cases k <;> decide

/-- An unbordered pattern that does not occur in the nonempty `x` is not a
prefix of `x ++ sep ++ y`. -/
theorem not_prefix_overlap (sep x y : List Char)
    (hub : Unbordered sep) (hx : ¬ sep <:+: x) (hxne : x ≠ []) :
    ¬ sep <+: (x ++ sep ++ y) := by
  rintro ⟨t, ht⟩
  rcases le_or_lt sep.length x.length with hle | hlt
  · apply hx
    have h1 : sep = x.take sep.length := by
      have h := congrArg (List.take sep.length) ht
      rw [List.take_left, List.append_assoc, List.take_append_of_le_length hle] at h
      exact h
    rw [h1]
    exact (List.take_prefix _ x).isInfix
  · have hxlen : 0 < x.length := List.length_pos.2 hxne
    have hdrop : sep.drop x.length ++ t = sep ++ y := by
      have h := congrArg (List.drop x.length) ht
      rw [List.drop_append_of_le_length (Nat.le_of_lt hlt), List.append_assoc,
        List.drop_left] at h
      exact h
    have hkey : sep.take (sep.length - x.length) = sep.drop x.length := by
      have h := congrArg (List.take (sep.length - x.length)) hdrop
      rw [List.take_left' (by rw [List.length_drop]),
        List.take_append_of_le_length (by omega)] at h
      exact h.symm
    have := hub (sep.length - x.length) (by omega) (by omega)
    apply this
    rw [hkey]
    congr 1
    omega

/-- Occurrences of an unbordered pattern are positioned uniquely between
texts that avoid it. -/
theorem occurrence_unique (sep x y u w : List Char)
    (hub : Unbordered sep) (hx : ¬ sep <:+: x) (hy : ¬ sep <:+: y)
    (h : u ++ sep ++ w = x ++ sep ++ y) : u = x ∧ w = y := by
  rw [List.append_assoc, List.append_assoc] at h
  rcases Nat.lt_trichotomy u.length x.length with hlt | heq | hgt
  · exfalso
    have hd : sep ++ w = x.drop u.length ++ (sep ++ y) := by
      have hd := congrArg (List.drop u.length) h
      rw [List.drop_left, List.drop_append_of_le_length (by omega)] at hd
      exact hd
    rcases le_or_lt (u.length + sep.length) x.length with hle | hover
    · -- the left occurrence would sit inside x
      apply hx
      have h1 : sep = (x.drop u.length).take sep.length := by
        have ht := congrArg (List.take sep.length) hd
        rw [List.take_left,
          List.take_append_of_le_length (by rw [List.length_drop]; omega)] at ht
        exact ht
      refine ⟨x.take u.length, x.drop (u.length + sep.length), ?_⟩
      conv_rhs => rw [← List.take_append_drop u.length x]
      rw [List.append_assoc]
      congr 1
      have h2 : x.drop (u.length + sep.length) = (x.drop u.length).drop sep.length :=
        (List.drop_drop sep.length u.length x).symm
      have h3 : x.drop u.length = sep ++ (x.drop u.length).drop sep.length := by
        conv_lhs => rw [← List.take_append_drop sep.length (x.drop u.length)]
        rw [← h1]
      rw [h2]
      conv_rhs => rw [h3]
    · -- the left occurrence straddles x and the separator: border
      have hd2 : sep.take (x.length - u.length) ++ (sep.drop (x.length - u.length) ++ w)
          = x.drop u.length ++ (sep ++ y) := by
        rw [← List.append_assoc, List.take_append_drop]
        exact hd
      have hxd : x.drop u.length = sep.take (x.length - u.length) := by
        have ht := congrArg (List.take (x.length - u.length)) hd2
        rw [List.take_left' (by rw [List.length_take]; omega),
          List.take_left' (by rw [List.length_drop])] at ht
        exact ht.symm
      have htl : sep.drop (x.length - u.length) ++ w = sep ++ y := by
        have ht := congrArg (List.drop (x.length - u.length)) hd2
        rw [List.drop_left' (by rw [List.length_take]; omega),
          List.drop_left' (by rw [List.length_drop])] at ht
        exact ht
      have hborder : sep.drop (x.length - u.length)
          = sep.take (sep.length - (x.length - u.length)) := by
        have ht := congrArg (List.take (sep.length - (x.length - u.length))) htl
        rw [List.take_left' (by rw [List.length_drop]),
          List.take_append_of_le_length (by omega)] at ht
        exact ht
      exact hub (sep.length - (x.length - u.length)) (by omega) (by omega)
        (by rw [← hborder]; congr 1; omega)
  · have hu : u = x := by
      have ht := congrArg (List.take u.length) h
      rw [List.take_left, List.take_left' heq.symm] at ht
      exact ht
    subst hu
    have h2 : (u ++ sep) ++ w = (u ++ sep) ++ y := by
      rw [List.append_assoc, List.append_assoc]
      exact h
    exact ⟨rfl, (List.append_right_inj (u ++ sep)).1 h2⟩
  · exfalso
    have hd : sep ++ w = (sep ++ y).drop (u.length - x.length) := by
      have hd := congrArg (List.drop u.length) h
      rw [List.drop_left] at hd
      have h2 : (x ++ (sep ++ y)).drop u.length = (sep ++ y).drop (u.length - x.length) := by
        conv_lhs => rw [show u.length = x.length + (u.length - x.length) by omega]
        rw [List.drop_append]
      rw [h2] at hd
      exact hd
    rcases le_or_lt (x.length + sep.length) u.length with hle | hover
    · -- the right occurrence would sit inside y
      apply hy
      have h2 : (sep ++ y).drop (u.length - x.length)
          = y.drop (u.length - x.length - sep.length) := by
        conv_lhs => rw [show u.length - x.length
          = sep.length + (u.length - x.length - sep.length) by omega]
        rw [List.drop_append]
      rw [h2] at hd
      refine ⟨y.take (u.length - x.length - sep.length), w, ?_⟩
      rw [List.append_assoc, hd, List.take_append_drop]
    · -- the right occurrence straddles the separator and y: border
      have h2 : (sep ++ y).drop (u.length - x.length)
          = sep.drop (u.length - x.length) ++ y := by
        rw [List.drop_append_of_le_length (by omega)]
      rw [h2] at hd
      have hborder : sep.take (sep.length - (u.length - x.length))
          = sep.drop (u.length - x.length) := by
        have ht := congrArg (List.take (sep.length - (u.length - x.length))) hd
        rw [List.take_append_of_le_length (by omega),
          List.take_left' (by rw [List.length_drop])] at ht
        exact ht
      exact hub (sep.length - (u.length - x.length)) (by omega) (by omega)
        (by rw [hborder]; congr 1; omega)

/-- A pattern avoiding the character `c` that prefixes `a ++ c :: b`
already prefixes `a`. -/
theorem prefix_through_excluded (sep : List Char) (c : Char) (hc : c ∉ sep) :
    ∀ (a b : List Char), sep <+: (a ++ c :: b) → sep <+: a := by
  induction sep with
  | nil => intro a b _; exact List.nil_prefix
  | cons e sep' ih =>
    intro a b h
    match a with
    | [] =>
      exfalso
      rcases h with ⟨t, ht⟩
      rw [List.nil_append, List.cons_append] at ht
      injection ht with h1 _
      exact hc (h1 ▸ List.mem_cons_self e sep')
    | d :: a' =>
      rcases h with ⟨t, ht⟩
      rw [List.cons_append, List.cons_append] at ht
      injection ht with h1 h2
      have : sep' <+: (a' ++ c :: b) := ⟨t, h2⟩
      have := ih (fun hm => hc (List.mem_cons_of_mem e hm)) a' b this
      rcases this with ⟨t', ht'⟩
      exact ⟨t', by rw [List.cons_append, ht', h1]⟩

/-- An occurrence of a pattern avoiding the character `c` lies entirely on
one side of that character. -/
theorem infix_through_excluded (sep : List Char) (c : Char) (hc : c ∉ sep) :
    ∀ (a b : List Char), sep <:+: (a ++ c :: b) → sep <:+: a ∨ sep <:+: b := by
  intro a
  induction a with
  | nil =>
    intro b h
    rcases h with ⟨s, t, hst⟩
    rw [List.nil_append] at hst
    match s, hst with
    | [], hst =>
      rw [List.nil_append] at hst
      match sep, hst, hc with
      | [], _, _ => exact Or.inr List.nil_infix
      | e :: sep', hst, hc =>
        exfalso
        injection hst with h1 _
        exact hc (h1 ▸ List.mem_cons_self e sep')
    | e :: s', hst =>
      rw [List.cons_append] at hst
      injection hst with _ h2
      exact Or.inr ⟨s', t, h2⟩
  | cons d a' ih =>
    intro b h
    rcases h with ⟨s, t, hst⟩
    match s, hst with
    | [], hst =>
      rw [List.nil_append] at hst
      have hpre : sep <+: (d :: a') := by
        have : sep <+: ((d :: a') ++ c :: b) := ⟨t, by rw [List.cons_append]; exact hst⟩
        exact prefix_through_excluded sep c hc _ b this
      exact Or.inl hpre.isInfix
    | e :: s', hst =>
      rw [List.cons_append, List.cons_append] at hst
      injection hst with _ h2
      rcases ih b ⟨s', t, h2⟩ with h | h
      · exact Or.inl (List.infix_cons h)
      · exact Or.inr h

/-- A nonempty pattern absent from `x` and from `y` is also absent from
`x ++ j ++ y` when the junction `j` uses only characters the pattern
avoids. -/
theorem not_infix_join (sep : List Char) (hsep : sep ≠ []) :
    ∀ (j x y : List Char), j ≠ [] → (∀ c ∈ j, c ∉ sep) →
      ¬ sep <:+: x → ¬ sep <:+: y → ¬ sep <:+: (x ++ j ++ y) := by
  intro j
  induction j with
  | nil => intro x y hne; exact absurd rfl hne
  | cons c j' ih =>
    intro x y _ hjc hx hy h
    rw [List.append_assoc, List.cons_append] at h
    rcases infix_through_excluded sep c (hjc c (List.mem_cons_self c j')) x (j' ++ y) h with
      h | h
    · exact hx h
    · match j' with
      | [] =>
        rw [List.nil_append] at h
        exact hy h
      | c' :: j'' =>
        have hxnil : ¬ sep <:+: ([] : List Char) := by
          intro hh
          exact hsep (List.eq_nil_of_infix_nil hh)
        exact ih [] y (by simp) (fun d hd => hjc d (List.mem_cons_of_mem c hd)) hxnil hy
          (by rw [List.nil_append]; exact h)

/-- The fuelled split does not depend on the fuel once it dominates the
length of the input. -/
theorem splitOnFuel_congr (sep : List Char) :
    ∀ (f₁ : Nat) (s : List Char) (f₂ : Nat), s.length < f₁ → s.length < f₂ →
      splitOnFuel sep f₁ s = splitOnFuel sep f₂ s := by
  intro f₁
  induction f₁ with
  | zero => intro s f₂ h _; omega
  | succ n ih =>
    intro s f₂ h₁ h₂
    match f₂ with
    | 0 => omega
    | m + 1 =>
      cases s with
      | nil =>
        have hC : (sep.isPrefixOf [] && !sep.isEmpty) = false := by
          cases sep <;> simp [List.isPrefixOf]
        rw [splitOnFuel, splitOnFuel, hC]
        simp
      | cons a s' =>
        simp only [List.length_cons] at h₁ h₂
        rw [splitOnFuel, splitOnFuel]
        by_cases hcond : (sep.isPrefixOf (a :: s') && !sep.isEmpty) = true
        · rw [if_pos hcond, if_pos hcond]
          congr 1
          have hsep : sep ≠ [] := by
            intro hh
            rw [hh] at hcond
            simp at hcond
          have hsep1 : 0 < sep.length := List.length_pos.2 hsep
          exact ih ((a :: s').drop sep.length) m
            (by rw [List.length_drop]; simp only [List.length_cons]; omega)
            (by rw [List.length_drop]; simp only [List.length_cons]; omega)
        · rw [if_neg hcond, if_neg hcond]
          exact congrArg (consHead a) (ih s' m (by omega) (by omega))

/-- Splitting a string free of the separator yields a single piece. -/
theorem pysplitOn_absent (sep y : List Char) (h : ¬ sep <:+: y) :
    pysplitOn sep y = [y] := by
  have key : ∀ (f : Nat) (y : List Char), y.length < f → ¬ sep <:+: y →
      splitOnFuel sep f y = [y] := by
    intro f
    induction f with
    | zero => intro y h _; omega
    | succ n ih =>
      intro y hlen hy
      have hcond : ¬ (sep.isPrefixOf y && !sep.isEmpty) = true := by
        intro hc
        rw [Bool.and_eq_true] at hc
        rcases hc with ⟨hp, _⟩
        exact hy (List.isPrefixOf_iff_prefix.1 hp).isInfix
      cases y with
      | nil => rw [splitOnFuel, if_neg hcond]
      | cons a y' =>
        simp only [List.length_cons] at hlen
        have hy' : ¬ sep <:+: y' := fun hh => hy (List.infix_cons hh)
        rw [splitOnFuel, if_neg hcond, ih y' (by omega) hy']
        rfl
  exact key _ y (Nat.lt_succ_self _) h

/-- Splitting at the unique occurrence of an unbordered separator. -/
theorem pysplitOn_occurrence (sep y : List Char) (hsep : sep ≠ [])
    (hub : Unbordered sep) :
    ∀ (x : List Char), ¬ sep <:+: x →
      pysplitOn sep (x ++ sep ++ y) = x :: pysplitOn sep y := by
  have key : ∀ (f : Nat) (x : List Char), (x ++ sep ++ y).length < f →
      ¬ sep <:+: x →
      splitOnFuel sep f (x ++ sep ++ y) = x :: pysplitOn sep y := by
    intro f
    induction f with
    | zero => intro x h _; omega
    | succ n ih =>
      intro x hlen hx
      cases x with
      | nil =>
        rcases hc : sep with _ | ⟨c, cs⟩
        · exact absurd hc hsep
        · subst hc
          have hcond : ((c :: cs).isPrefixOf (c :: (cs ++ y)) && !(c :: cs).isEmpty) = true := by
            rw [Bool.and_eq_true]
            exact ⟨List.isPrefixOf_iff_prefix.2 ⟨y, by simp⟩, rfl⟩
          show splitOnFuel (c :: cs) (n + 1) (c :: (cs ++ y)) = [] :: pysplitOn (c :: cs) y
          rw [splitOnFuel, if_pos hcond]
          congr 1
          have hdrop : (c :: (cs ++ y)).drop (c :: cs).length = y := by
            show ((c :: cs) ++ y).drop (c :: cs).length = y
            exact List.drop_left _ _
          rw [hdrop]
          simp only [List.nil_append, List.length_append, List.length_cons] at hlen
          exact splitOnFuel_congr (c :: cs) n y (y.length + 1)
            (by omega) (Nat.lt_succ_self _)
      | cons a x' =>
        have hnp : ¬ sep <+: ((a :: x') ++ sep ++ y) :=
          not_prefix_overlap sep (a :: x') y hub hx (by simp)
        have hcond : ¬ (sep.isPrefixOf (a :: (x' ++ sep ++ y)) && !sep.isEmpty) = true := by
          intro hc
          rw [Bool.and_eq_true] at hc
          exact hnp (List.isPrefixOf_iff_prefix.1 hc.1)
        show splitOnFuel sep (n + 1) (a :: (x' ++ sep ++ y)) = (a :: x') :: pysplitOn sep y
        rw [splitOnFuel, if_neg hcond]
        simp only [List.length_append, List.length_cons] at hlen
        have hx' : ¬ sep <:+: x' := fun hh => hx (List.infix_cons hh)
        have := ih x' (by simp only [List.length_append]; omega) hx'
        rw [this]
        rfl
  intro x hx
  exact key _ x (Nat.lt_succ_self _) hx

/-- The fuelled replace does not depend on the fuel once it dominates the
length of the input. -/
theorem replaceFuel_congr (old new : List Char) :
    ∀ (f₁ : Nat) (s : List Char) (f₂ : Nat), s.length < f₁ → s.length < f₂ →
      replaceFuel old new f₁ s = replaceFuel old new f₂ s := by
  intro f₁
  induction f₁ with
  | zero => intro s f₂ h _; omega
  | succ n ih =>
    intro s f₂ h₁ h₂
    match f₂ with
    | 0 => omega
    | m + 1 =>
      cases s with
      | nil =>
        have hC : (old.isPrefixOf [] && !old.isEmpty) = false := by
          cases old <;> simp [List.isPrefixOf]
        rw [replaceFuel, replaceFuel, hC]
        simp
      | cons a s' =>
        simp only [List.length_cons] at h₁ h₂
        rw [replaceFuel, replaceFuel]
        by_cases hcond : (old.isPrefixOf (a :: s') && !old.isEmpty) = true
        · rw [if_pos hcond, if_pos hcond]
          congr 1
          have hold : old ≠ [] := by
            intro hh
            rw [hh] at hcond
            simp at hcond
          have hold1 : 0 < old.length := List.length_pos.2 hold
          exact ih ((a :: s').drop old.length) m
            (by rw [List.length_drop]; simp only [List.length_cons]; omega)
            (by rw [List.length_drop]; simp only [List.length_cons]; omega)
        · rw [if_neg hcond, if_neg hcond]
          exact congrArg (List.cons a) (ih s' m (by omega) (by omega))

/-- Replacing in a string free of the pattern is the identity. -/
theorem pyreplace_absent (old new y : List Char) (h : ¬ old <:+: y) :
    pyreplace old new y = y := by
  have key : ∀ (f : Nat) (y : List Char), y.length < f → ¬ old <:+: y →
      replaceFuel old new f y = y := by
    intro f
    induction f with
    | zero => intro y h _; omega
    | succ n ih =>
      intro y hlen hy
      have hcond : ¬ (old.isPrefixOf y && !old.isEmpty) = true := by
        intro hc
        rw [Bool.and_eq_true] at hc
        rcases hc with ⟨hp, _⟩
        exact hy (List.isPrefixOf_iff_prefix.1 hp).isInfix
      cases y with
      | nil => rw [replaceFuel, if_neg hcond]
      | cons a y' =>
        simp only [List.length_cons] at hlen
        have hy' : ¬ old <:+: y' := fun hh => hy (List.infix_cons hh)
        rw [replaceFuel, if_neg hcond, ih y' (by omega) hy']
  exact key _ y (Nat.lt_succ_self _) h

/-- Replacing the unique occurrence of an unbordered pattern. -/
theorem pyreplace_occurrence (old new y : List Char) (hold : old ≠ [])
    (hub : Unbordered old) (hy : ¬ old <:+: y) :
    ∀ (x : List Char), ¬ old <:+: x →
      pyreplace old new (x ++ old ++ y) = x ++ new ++ y := by
  have key : ∀ (f : Nat) (x : List Char), (x ++ old ++ y).length < f →
      ¬ old <:+: x →
      replaceFuel old new f (x ++ old ++ y) = x ++ new ++ y := by
    intro f
    induction f with
    | zero => intro x h _; omega
    | succ n ih =>
      intro x hlen hx
      cases x with
      | nil =>
        rcases hc : old with _ | ⟨c, cs⟩
        · exact absurd hc hold
        · subst hc
          have hcond : ((c :: cs).isPrefixOf (c :: (cs ++ y)) && !(c :: cs).isEmpty) = true := by
            rw [Bool.and_eq_true]
            exact ⟨List.isPrefixOf_iff_prefix.2 ⟨y, by simp⟩, rfl⟩
          show replaceFuel (c :: cs) new (n + 1) (c :: (cs ++ y)) = [] ++ new ++ y
          rw [replaceFuel, if_pos hcond]
          have hdrop : (c :: (cs ++ y)).drop (c :: cs).length = y := by
            show ((c :: cs) ++ y).drop (c :: cs).length = y
            exact List.drop_left _ _
          rw [hdrop]
          simp only [List.nil_append, List.length_append, List.length_cons] at hlen
          have hfc : replaceFuel (c :: cs) new n y = replaceFuel (c :: cs) new (y.length + 1) y :=
            replaceFuel_congr (c :: cs) new n y (y.length + 1) (by omega) (Nat.lt_succ_self _)
          rw [hfc]
          show new ++ pyreplace (c :: cs) new y = [] ++ new ++ y
          rw [pyreplace_absent (c :: cs) new y hy]
          rfl
      | cons a x' =>
        have hnp : ¬ old <+: ((a :: x') ++ old ++ y) :=
          not_prefix_overlap old (a :: x') y hub hx (by simp)
        have hcond : ¬ (old.isPrefixOf (a :: (x' ++ old ++ y)) && !old.isEmpty) = true := by
          intro hc
          rw [Bool.and_eq_true] at hc
          exact hnp (List.isPrefixOf_iff_prefix.1 hc.1)
        show replaceFuel old new (n + 1) (a :: (x' ++ old ++ y)) = (a :: x') ++ new ++ y
        rw [replaceFuel, if_neg hcond]
        simp only [List.length_append, List.length_cons] at hlen
        have hx' : ¬ old <:+: x' := fun hh => hx (List.infix_cons hh)
        have := ih x' (by simp only [List.length_append]; omega) hx'
        rw [this]
        rfl
  intro x hx
  exact key _ x (Nat.lt_succ_self _) hx

/-- Replacing a single character expands the string pointwise. -/
theorem pyreplace_single_expand (c : Char) (new : List Char) (s : List Char) :
    pyreplace [c] new s = s.flatMap (fun a => if a = c then new else [a]) := by
  have key : ∀ (fuel : Nat) (s : List Char), s.length < fuel →
      replaceFuel [c] new fuel s = s.flatMap (fun a => if a = c then new else [a]) := by
    intro fuel
    induction fuel with
    | zero => intro s hs; omega
    | succ n ih =>
      intro s hs
      match s with
      | [] => simp [replaceFuel]
      | a :: s' =>
        simp only [List.length_cons] at hs
        rw [List.flatMap_cons]
        by_cases hac : a = c
        · subst hac
          rw [replaceFuel, isPrefixOf_single]
          simp only [beq_self_eq_true, List.isEmpty_cons, Bool.not_false, Bool.and_true,
            if_true, List.length_singleton, List.drop_succ_cons, List.drop_zero]
          rw [ih s' (by omega)]
        · rw [replaceFuel, isPrefixOf_single]
          have hbeq : (c == a) = false := by simp [Ne.symm hac]
          rw [hbeq]
          simp only [Bool.false_and, if_false, Bool.false_eq_true]
          rw [ih s' (by omega), if_neg hac]
          rfl
  exact key _ s (Nat.lt_succ_self _)

/-- The junction column: a four-space hanging indent after a newline, as
produced between wrapped lines. -/
def nlIndent : List Char := '\n' :: chars "    "

/-- A text assembled from a nonempty word list with junction strings drawn
from the predicate `J` between consecutive words. -/
inductive Joined (J : List Char → Prop) : List (List Char) → List Char → Prop
  | single (w : List Char) : Joined J [w] w
  | cons (w s : List Char) (ws : List (List Char)) (t : List Char) :
      J s → Joined J ws t → Joined J (w :: ws) (w ++ s ++ t)

/-- Two joined texts glued by one more junction are joined. -/
theorem joined_append {J : List Char → Prop} {ws ws' : List (List Char)}
    {t s t' : List Char} (h : Joined J ws t) (hs : J s) (h' : Joined J ws' t') :
    Joined J (ws ++ ws') (t ++ s ++ t') := by
  induction h with
  | single w => exact Joined.cons w s ws' t' hs h'
  | cons w s₀ ws₀ t₀ hs₀ h₀ ih =>
    have := Joined.cons w s₀ (ws₀ ++ ws') (t₀ ++ s ++ t') hs₀ ih
    rw [List.cons_append]
    rw [show w ++ s₀ ++ t₀ ++ s ++ t' = w ++ s₀ ++ (t₀ ++ s ++ t') by
      simp [List.append_assoc]]
    exact this

/-- A one-word joined text is the word itself. -/
theorem joined_single_inv {J : List Char → Prop} {w t : List Char}
    (h : Joined J [w] t) : t = w := by
  cases h with
  | single => rfl
  | cons w s ws t hs h' => cases h'

/-- Peeling the first word off a joined text with at least two words. -/
theorem joined_cons_inv {J : List Char → Prop} {w : List Char}
    {ws : List (List Char)} {t : List Char} (h : Joined J (w :: ws) t)
    (hne : ws ≠ []) : ∃ s t', J s ∧ Joined J ws t' ∧ t = w ++ s ++ t' := by
  cases h with
  | single => exact absurd rfl hne
  | cons w s ws t hs h' => exact ⟨s, t, hs, h', rfl⟩

/-- A pattern avoided by every word and whose characters never occur in
junctions does not occur in the joined text. -/
theorem joined_avoids {J : List Char → Prop} (sep : List Char) (hsep : sep ≠ [])
    (hJ : ∀ s, J s → s ≠ [] ∧ ∀ c ∈ s, c ∉ sep) {ws : List (List Char)}
    {t : List Char} (h : Joined J ws t) (hw : ∀ w ∈ ws, ¬ sep <:+: w) :
    ¬ sep <:+: t := by
  induction h with
  | single w => exact hw w (List.mem_singleton.2 rfl)
  | cons w s ws₀ t₀ hs h₀ ih =>
    exact not_infix_join sep hsep s w t₀ (hJ s hs).1 (hJ s hs).2
      (hw w (List.mem_cons_self w ws₀)) (ih fun v hv => hw v (List.mem_cons_of_mem w hv))

/-- Every character of a joined text comes from a word or a junction. -/
theorem joined_chars {J : List Char → Prop} {p : Char → Prop}
    {ws : List (List Char)} {t : List Char} (h : Joined J ws t)
    (hw : ∀ w ∈ ws, ∀ c ∈ w, p c) (hJ : ∀ s, J s → ∀ c ∈ s, p c) :
    ∀ c ∈ t, p c := by
  induction h with
  | single w => exact hw w (List.mem_singleton.2 rfl)
  | cons w s ws₀ t₀ hs h₀ ih =>
    intro c hc
    rcases List.mem_append.1 hc with hc | hc
    · rcases List.mem_append.1 hc with hc | hc
      · exact hw w (List.mem_cons_self w ws₀) c hc
      · exact hJ s hs c hc
    · exact ih (fun v hv => hw v (List.mem_cons_of_mem w hv)) c hc

/-- Filtering a joined text filters each junction and fixes each word. -/
theorem joined_filter {J : List Char → Prop} (p : Char → Bool)
    {ws : List (List Char)} {t : List Char} (h : Joined J ws t)
    (hw : ∀ w ∈ ws, w.filter p = w) :
    Joined (fun s' => ∃ s, J s ∧ s' = s.filter p) ws (t.filter p) := by
  induction h with
  | single w =>
    rw [hw w (List.mem_singleton.2 rfl)]
    exact Joined.single w
  | cons w s ws₀ t₀ hs h₀ ih =>
    rw [List.filter_append, List.filter_append, hw w (List.mem_cons_self w ws₀)]
    exact Joined.cons w (s.filter p) ws₀ (t₀.filter p) ⟨s, hs, rfl⟩
      (ih fun v hv => hw v (List.mem_cons_of_mem w hv))

/-- A character-expanding `flatMap` that fixes each word maps a joined text
to a joined text with expanded junctions. -/
theorem joined_flatMap {J : List Char → Prop} (f : Char → List Char)
    {ws : List (List Char)} {t : List Char} (h : Joined J ws t)
    (hw : ∀ w ∈ ws, w.flatMap f = w) :
    Joined (fun s' => ∃ s, J s ∧ s' = s.flatMap f) ws (t.flatMap f) := by
  induction h with
  | single w =>
    rw [hw w (List.mem_singleton.2 rfl)]
    exact Joined.single w
  | cons w s ws₀ t₀ hs h₀ ih =>
    rw [List.flatMap_append, List.flatMap_append, hw w (List.mem_cons_self w ws₀)]
    exact Joined.cons w (s.flatMap f) ws₀ (t₀.flatMap f) ⟨s, hs, rfl⟩
      (ih fun v hv => hw v (List.mem_cons_of_mem w hv))

/-- One-piece intercalation. -/
theorem intercalate_single (s a : List Char) : List.intercalate s [a] = a := by
  simp [List.intercalate]

/-- Unfolding one step of the intercalation. -/
theorem intercalate_cons (s a : List Char) (l : List (List Char)) (h : l ≠ []) :
    List.intercalate s (a :: l) = a ++ s ++ List.intercalate s l := by
  cases l with
  | nil => exact absurd rfl h
  | cons b l' =>
    simp [List.intercalate, List.intersperse_cons_cons, List.append_assoc]

/-- A space-intercalated nonempty word list is joined by spaces. -/
theorem joined_intercalate {J : List Char → Prop} (hJ : J [' ']) :
    ∀ (ws : List (List Char)) (w : List Char),
      Joined J (w :: ws) (List.intercalate [' '] (w :: ws)) := by
  intro ws
  induction ws with
  | nil =>
    intro w
    rw [intercalate_single]
    exact Joined.single w
  | cons w' ws ih =>
    intro w
    rw [intercalate_cons _ _ _ (by simp)]
    exact Joined.cons w [' '] (w' :: ws) _ hJ (ih w')

/-- The newline-plus-indent gluing of space-intercalated groups is a
joined rendition of the concatenated word list. -/
theorem joined_glue {J : List Char → Prop} (hsp : J [' ']) (hnl : J nlIndent) :
    ∀ (gs : List (List (List Char))), gs ≠ [] → (∀ g ∈ gs, g ≠ []) →
      Joined J gs.flatten
        (List.intercalate nlIndent (gs.map (List.intercalate [' ']))) := by
  intro gs
  induction gs with
  | nil => intro h _; exact absurd rfl h
  | cons g gs ih =>
    intro _ hne
    cases gs with
    | nil =>
      rcases hg : g with _ | ⟨w, g'⟩
      · exact absurd hg (hne g (List.mem_singleton.2 rfl))
      · subst hg
        simp only [List.flatten, List.map, List.append_nil]
        rw [intercalate_single]
        exact joined_intercalate hsp g' w
    | cons g₂ gs' =>
      rcases hg : g with _ | ⟨w, g'⟩
      · exact absurd hg (hne g (List.mem_cons_self g _))
      · subst hg
        rw [List.map_cons, intercalate_cons _ _ _ (by simp), List.flatten_cons]
        exact joined_append (joined_intercalate hsp g' w) hnl
          (ih (by simp) (fun v hv => hne v (List.mem_cons_of_mem _ hv)))

/-- Scanning past an all-whitespace chunk drops it. -/
theorem dropWhile_ws_append (u : List Char) (hu : ∀ c ∈ u, c.isWhitespace) :
    ∀ (s : List Char), (u ++ s).dropWhile Char.isWhitespace =
      s.dropWhile Char.isWhitespace := by
  induction u with
  | nil => intro s; rfl
  | cons a u ih =>
    intro s
    rw [List.cons_append, List.dropWhile_cons,
      if_pos (hu a (List.mem_cons_self a u))]
    exact ih (fun c hc => hu c (List.mem_cons_of_mem a hc)) s

/-- A whitespace-free string survives the whitespace scan. -/
theorem dropWhile_ws_free (w : List Char) (hw : ∀ c ∈ w, ¬ c.isWhitespace) :
    w.dropWhile Char.isWhitespace = w := by
  cases w with
  | nil => rfl
  | cons a w => rw [List.dropWhile_cons, if_neg (hw a (List.mem_cons_self a w))]

/-- Stripping whitespace from both sides of a whitespace-padded
whitespace-free word recovers the word. -/
theorem pystrip_sandwich (u w v : List Char) (hu : ∀ c ∈ u, c.isWhitespace)
    (hv : ∀ c ∈ v, c.isWhitespace) (hw : ∀ c ∈ w, ¬ c.isWhitespace)
    (hne : w ≠ []) : pystrip (u ++ w ++ v) = w := by
  have h1 : (u ++ w ++ v).dropWhile Char.isWhitespace = w ++ v := by
    rw [List.append_assoc, dropWhile_ws_append u hu]
    cases w with
    | nil => exact absurd rfl hne
    | cons a w' =>
      rw [List.cons_append, List.dropWhile_cons,
        if_neg (hw a (List.mem_cons_self a w'))]
  rw [pystrip, h1, rdropP, List.reverse_append,
    dropWhile_ws_append v.reverse (fun c hc => hv c (List.mem_reverse.1 hc)),
    dropWhile_ws_free w.reverse (fun c hc => hw c (List.mem_reverse.1 hc)),
    List.reverse_reverse]

/-- A whitespace-free chunk accumulates during the word scan. -/
theorem wordsAux_chunk (w : List Char) (hw : ∀ c ∈ w, ¬ c.isWhitespace) :
    ∀ (s acc : List Char), wordsAux (w ++ s) acc = wordsAux s (w.reverse ++ acc) := by
  induction w with
  | nil => intro s acc; rfl
  | cons a w ih =>
    intro s acc
    rw [List.cons_append, wordsAux, if_neg]
    · rw [ih (fun c hc => hw c (List.mem_cons_of_mem a hc)) s (a :: acc),
        List.reverse_cons, List.append_assoc]
      rfl
    · exact fun hws => hw a (List.mem_cons_self a w) hws

/-- The words of a single whitespace-free word. -/
theorem wordsOf_single (w : List Char) (hne : w ≠ [])
    (hw : ∀ c ∈ w, ¬ c.isWhitespace) : wordsOf w = [w] := by
  have h := wordsAux_chunk w hw [] []
  rw [List.append_nil] at h
  rw [wordsOf, h, wordsAux, List.append_nil, if_neg, List.reverse_reverse]
  intro hh
  rw [List.isEmpty_iff] at hh
  exact hne (by simpa using congrArg List.reverse hh)

/-- The words of a space-intercalated list of whitespace-free words. -/
theorem wordsOf_intercalate :
    ∀ (ws : List (List Char)) (w : List Char), w ≠ [] →
      (∀ c ∈ w, ¬ c.isWhitespace) →
      (∀ v ∈ ws, v ≠ [] ∧ ∀ c ∈ v, ¬ c.isWhitespace) →
      wordsOf (List.intercalate [' '] (w :: ws)) = w :: ws := by
  intro ws
  induction ws with
  | nil =>
    intro w hne hw _
    rw [intercalate_single]
    exact wordsOf_single w hne hw
  | cons v ws ih =>
    intro w hne hw hws
    rw [intercalate_cons _ _ _ (by simp), List.append_assoc, wordsOf,
      wordsAux_chunk w hw, List.append_nil]
    show wordsAux (' ' :: List.intercalate [' '] (v :: ws)) w.reverse = w :: v :: ws
    rw [wordsAux, if_pos (by decide), if_neg, List.reverse_reverse]
    · have := ih v (hws v (List.mem_cons_self v ws)).1
        (hws v (List.mem_cons_self v ws)).2
        (fun u hu => hws u (List.mem_cons_of_mem v hu))
      rw [wordsOf] at this
      rw [this]
    · intro hh
      rw [List.isEmpty_iff] at hh
      exact hne (by simpa using congrArg List.reverse hh)

/-- Rendered length contribution of the words after the first: one space
plus the word, each. -/
def sumLen (ws : List (List Char)) : Nat := (ws.map (fun w => w.length + 1)).sum

/-- The length of a space-intercalated word list. -/
theorem inter_space_length :
    ∀ (ws : List (List Char)) (w : List Char),
      (List.intercalate [' '] (w :: ws)).length = w.length + sumLen ws := by
  intro ws
  induction ws with
  | nil =>
    intro w
    rw [intercalate_single]
    simp [sumLen]
  | cons v ws ih =>
    intro w
    rw [intercalate_cons _ _ _ (by simp)]
    simp only [List.length_append, List.length_cons, List.length_nil]
    rw [ih v]
    simp only [sumLen, List.map_cons, List.sum_cons]
    omega

/-- The two greedy pieces reassemble the input. -/
theorem greedyTake_append (width : Nat) :
    ∀ (ws : List (List Char)) (cur : Nat),
      (greedyTake width cur ws).1 ++ (greedyTake width cur ws).2 = ws := by
  intro ws
  induction ws with
  | nil => intro cur; rfl
  | cons w ws ih =>
    intro cur
    rw [greedyTake]
    by_cases hc : cur + 1 + w.length ≤ width
    · rw [if_pos hc]
      show w :: ((greedyTake width (cur + 1 + w.length) ws).1 ++
        (greedyTake width (cur + 1 + w.length) ws).2) = w :: ws
      rw [ih]
    · rw [if_neg hc]
      rfl

/-- Greedy extension never exceeds the width it starts under. -/
theorem greedyTake_bound (width : Nat) :
    ∀ (ws : List (List Char)) (cur : Nat), cur ≤ width →
      cur + sumLen (greedyTake width cur ws).1 ≤ width := by
  intro ws
  induction ws with
  | nil =>
    intro cur h
    simpa [greedyTake, sumLen] using h
  | cons w ws ih =>
    intro cur h
    rw [greedyTake]
    by_cases hc : cur + 1 + w.length ≤ width
    · rw [if_pos hc]
      have := ih (cur + 1 + w.length) hc
      show cur + sumLen (w :: (greedyTake width (cur + 1 + w.length) ws).1) ≤ width
      simp only [sumLen, List.map_cons, List.sum_cons] at this ⊢
      omega
    · rw [if_neg hc]
      simpa [sumLen] using h

/-- If greedy extension consumed every word, the whole tail fitted. -/
theorem greedyTake_all (width : Nat) :
    ∀ (ws : List (List Char)) (cur : Nat), ws ≠ [] →
      (greedyTake width cur ws).2 = [] → cur + sumLen ws ≤ width := by
  intro ws
  induction ws with
  | nil => intro cur h _; exact absurd rfl h
  | cons w ws ih =>
    intro cur _ h2
    rw [greedyTake] at h2
    by_cases hc : cur + 1 + w.length ≤ width
    · rw [if_pos hc] at h2
      cases hws : ws with
      | nil =>
        subst hws
        simp only [sumLen, List.map_cons, List.map_nil, List.sum_cons, List.sum_nil]
        omega
      | cons v ws' =>
        subst hws
        have := ih (cur + 1 + w.length) (by simp)
          (by simpa using h2)
        simp only [sumLen, List.map_cons, List.sum_cons] at this ⊢
        omega
    · rw [if_neg hc] at h2
      exact absurd h2 (by simp)

/-- The continuation groups reassemble their word list. -/
theorem wrapRest_flatten (width : Nat) :
    ∀ (fuel : Nat) (ws : List (List Char)), ws.length ≤ fuel →
      (wrapRestFuel width fuel ws).flatten = ws := by
  intro fuel
  induction fuel with
  | zero =>
    intro ws h
    rw [List.length_eq_zero.1 (Nat.le_zero.1 h)]
    rfl
  | succ n ih =>
    intro ws h
    cases ws with
    | nil => rfl
    | cons w ws' =>
      rw [wrapRestFuel]
      show ((w :: (greedyTake width w.length ws').1) ::
        wrapRestFuel width n (greedyTake width w.length ws').2).flatten = w :: ws'
      rw [List.flatten_cons]
      have hsub : (greedyTake width w.length ws').2.length ≤ n := by
        have hap := greedyTake_append width ws' w.length
        have := congrArg List.length hap
        rw [List.length_append] at this
        simp only [List.length_cons] at h
        omega
      rw [ih _ hsub, List.cons_append, greedyTake_append width ws' w.length]

/-- Each continuation group is nonempty and renders within the width. -/
theorem wrapRest_groups (width : Nat) :
    ∀ (fuel : Nat) (ws : List (List Char)) (g : List (List Char)),
      g ∈ wrapRestFuel width fuel ws → (∀ w ∈ ws, w.length ≤ width) →
      (∃ (w : List Char) (p : List (List Char)), g = w :: p) ∧
        (List.intercalate [' '] g).length ≤ width := by
  intro fuel
  induction fuel with
  | zero => intro ws g hg _; simp [wrapRestFuel] at hg
  | succ n ih =>
    intro ws g hg hw
    cases ws with
    | nil => simp [wrapRestFuel] at hg
    | cons w ws' =>
      rw [wrapRestFuel] at hg
      rcases List.mem_cons.1 hg with hgeq | hgmem
      · constructor
        · exact ⟨w, _, hgeq⟩
        · rw [hgeq, inter_space_length]
          have hb := greedyTake_bound width ws' w.length (hw w (List.mem_cons_self w ws'))
          omega
      · refine ih _ g hgmem (fun v hv => hw v (List.mem_cons_of_mem w ?_))
        rw [← greedyTake_append width ws' w.length]
        exact List.mem_append_right _ hv

/-- Splitting after a separator-free chunk extends the first piece. -/
theorem splitChar_append_clean (c : Char) :
    ∀ (x u h : List Char) (t : List (List Char)), c ∉ x → splitChar c u = h :: t →
      splitChar c (x ++ u) = (x ++ h) :: t := by
  intro x
  induction x with
  | nil => intro u h t _ hu; simpa using hu
  | cons a x ih =>
    intro u h t hc hu
    have hac : ¬ (a = c) := fun hh => hc (by rw [← hh]; exact List.mem_cons_self a x)
    rw [List.cons_append, splitChar, if_neg hac,
      ih u h t (fun hh => hc (List.mem_cons_of_mem a hh)) hu]
    rfl

/-- A comma-and-space intercalation is the space intercalation of the
comma-carrying words. -/
theorem inter_comma_words :
    ∀ (ds : List (List Char)) (sym : List Char),
      List.intercalate [' '] (ds.map (fun d => d ++ [',']) ++ [sym]) =
        List.intercalate (chars ", ") (ds ++ [sym]) := by
  intro ds
  induction ds with
  | nil =>
    intro sym
    simp only [List.map_nil, List.nil_append]
    rw [intercalate_single, intercalate_single]
  | cons d ds ih =>
    intro sym
    rw [List.map_cons, List.cons_append, List.cons_append,
      intercalate_cons _ _ _ (by simp), intercalate_cons _ _ _ (by simp), ih]
    have hcs : chars ", " = [','] ++ [' '] := by decide
    rw [hcs]
    simp [List.append_assoc]

/-- The parser's comma pass on a junction-joined component text: splitting
at commas, dropping empty pieces and stripping recovers the names. -/
theorem comps_pieces {J : List Char → Prop}
    (hJw : ∀ s, J s → ∀ c ∈ s, c.isWhitespace) :
    ∀ (ds : List (List Char)) (sym T pre : List Char),
      (∀ d ∈ ds, d ≠ [] ∧ ',' ∉ d ∧ ∀ c ∈ d, ¬ c.isWhitespace) →
      sym ≠ [] → ',' ∉ sym → (∀ c ∈ sym, ¬ c.isWhitespace) →
      (∀ c ∈ pre, c.isWhitespace) →
      Joined J (ds.map (fun d => d ++ [',']) ++ [sym]) T →
      ((splitChar ',' (pre ++ T)).filter (fun p => !p.isEmpty)).map pystrip
        = ds ++ [sym] := by
  intro ds
  induction ds with
  | nil =>
    intro sym T pre _ hs hsc hsw hpre hJ
    have hT : T = sym := joined_single_inv (by simpa using hJ)
    rw [hT]
    have hnm : ',' ∉ pre ++ sym := by
      intro hc
      rcases List.mem_append.1 hc with hc | hc
      · have := hpre ',' hc
        simp at this
      · exact hsc hc
    have hkeep : (!(pre ++ sym).isEmpty) = true := by
      rcases hps : pre ++ sym with _ | ⟨a, l⟩
      · exact absurd (List.append_eq_nil.1 hps).2 hs
      · rfl
    rw [splitChar_of_not_mem ',' _ hnm, List.filter_cons_of_pos (by exact hkeep), List.filter_nil,
      List.map_cons, List.map_nil]
    have hstr := pystrip_sandwich pre sym [] hpre (by intro c hc; cases hc) hsw hs
    rw [List.append_nil] at hstr
    rw [hstr]
    rfl
  | cons d ds ih =>
    intro sym T pre hd hs hsc hsw hpre hJ
    have hJx : Joined J ((d ++ [',']) :: (ds.map (fun v => v ++ [',']) ++ [sym])) T := by
      simpa using hJ
    obtain ⟨s, t', hsJ, hJ', hTeq⟩ := joined_cons_inv hJx (by simp)
    subst hTeq
    have hda : ',' ∉ pre ++ d := by
      intro hc
      rcases List.mem_append.1 hc with hc | hc
      · have := hpre ',' hc
        simp at this
      · exact (hd d (List.mem_cons_self d ds)).2.1 hc
    have hshape : pre ++ ((d ++ [',']) ++ s ++ t') = (pre ++ d) ++ ',' :: (s ++ t') := by
      simp [List.append_assoc]
    rw [hshape, splitChar_append_sep ',' (pre ++ d) (s ++ t') hda]
    have hkeep : (!(pre ++ d).isEmpty) = true := by
      rcases hps : pre ++ d with _ | ⟨a, l⟩
      · exact absurd (List.append_eq_nil.1 hps).2 (hd d (List.mem_cons_self d ds)).1
      · rfl
    rw [List.filter_cons_of_pos (by exact hkeep), List.map_cons]
    have hstr := pystrip_sandwich pre d [] hpre (by intro c hc; cases hc)
      (hd d (List.mem_cons_self d ds)).2.2 (hd d (List.mem_cons_self d ds)).1
    rw [List.append_nil] at hstr
    rw [hstr, ih sym t' s (fun v hv => hd v (List.mem_cons_of_mem d hv))
      hs hsc hsw (hJw s hsJ) hJ']
    rfl

/-- A well-formed module or symbol name for the wrap analysis: nonempty,
free of whitespace, commas, parentheses, backslashes and hyphens, and not
containing the letters `import`.  Hyphens are excluded because
`textwrap`'s default `break_on_hyphens` may split a hyphenated chunk
across lines, which the word-level wrap model deliberately does not
represent; every wrap theorem is stated over hyphen-free names, where the
model is exact. -/
def GoodName (w : List Char) : Prop :=
  w ≠ [] ∧
    (∀ c ∈ w, ¬ c.isWhitespace ∧ c ≠ ',' ∧ c ≠ '(' ∧ c ≠ ')' ∧ c ≠ '\\' ∧ c ≠ '-') ∧
    ¬ chars "import" <:+: w

instance (w : List Char) : Decidable (GoodName w) := by
  unfold GoodName
  infer_instance

/-- The junctions a wrapped statement uses between words: a single space or
a newline plus hanging indent. -/
def SepNL (s : List Char) : Prop := s = [' '] ∨ s = nlIndent

/-- The single-line re-rendering of a merged import built by the engine. -/
def mergeStatement (base : List Char) (comps : List (List Char))
    (symbol : List Char) : List Char :=
  chars "from " ++ base ++ chars " import " ++
    List.intercalate (chars ", ") (comps ++ [symbol])

/-- Unfolding of the merge/wrap engine through `mergeStatement`. -/
theorem merge_wrap_engine_def (base : List Char) (comps : List (List Char))
    (symbol existing : List Char) :
    merge_wrap_engine base comps symbol existing =
      if 1 < (pywrap (mergeStatement base comps symbol)).length then
        if '\\' ∈ existing then
          pyreplace ['\n'] (chars " \\\n")
            (List.intercalate ['\n'] (pywrap (mergeStatement base comps symbol)))
        else
          pyreplace (chars "import ") (chars "import (")
            (List.intercalate ['\n'] (pywrap (mergeStatement base comps symbol))) ++ [')']
      else List.intercalate ['\n'] (pywrap (mergeStatement base comps symbol)) := rfl

theorem unbordered_from : Unbordered (chars "from") := by
  intro k h1 h2
  have : k < 4 := h2
  interval_cases k <;> decide

/-- One fitting step of the greedy extension. -/
theorem greedyTake_cons_fit (width cur : Nat) (w : List Char)
    (ws : List (List Char)) (h : cur + 1 + w.length ≤ width) :
    greedyTake width cur (w :: ws) =
      (w :: (greedyTake width (cur + 1 + w.length) ws).1,
        (greedyTake width (cur + 1 + w.length) ws).2) := by
  rw [greedyTake, if_pos h]

/-- Unfolding of the group computation at a first word. -/
theorem wrapGroups_cons (fw rwd : Nat) (w : List Char) (ws : List (List Char)) :
    wrapGroups fw rwd (w :: ws) =
      (w :: (greedyTake fw w.length ws).1) ::
        wrapRestFuel rwd (greedyTake fw w.length ws).2.length
          (greedyTake fw w.length ws).2 := by
  rw [wrapGroups]

/-- Continuation groups of a nonempty word list are nonempty. -/
theorem wrapRest_ne_nil (width n : Nat) (w : List Char) (ws : List (List Char)) :
    wrapRestFuel width (n + 1) (w :: ws) ≠ [] := by
  rw [wrapRestFuel]
  simp

/-- A pointwise-fixed `flatMap` is the identity. -/
theorem flatMap_fixed (f : Char → List Char) :
    ∀ (s : List Char), (∀ a ∈ s, f a = [a]) → s.flatMap f = s := by
  intro s
  induction s with
  | nil => intro _; rfl
  | cons a s ih =>
    intro h
    rw [List.flatMap_cons, h a (List.mem_cons_self a s),
      ih (fun b hb => h b (List.mem_cons_of_mem a hb))]
    rfl

/-- Newline-joining indented lines is intercalation by newline plus
indent. -/
theorem glue_lines :
    ∀ (ls : List (List Char)) (l₁ : List Char),
      List.intercalate ['\n'] (l₁ :: ls.map (fun l => chars "    " ++ l)) =
        List.intercalate nlIndent (l₁ :: ls) := by
  intro ls
  induction ls with
  | nil =>
    intro l₁
    rw [List.map_nil, intercalate_single, intercalate_single]
  | cons l₂ ls ih =>
    intro l₁
    rw [List.map_cons,
      intercalate_cons ['\n'] l₁ ((chars "    " ++ l₂) :: ls.map (fun l => chars "    " ++ l))
        (by simp)]
    conv_rhs => rw [intercalate_cons nlIndent l₁ (l₂ :: ls) (by simp)]
    rw [ih (chars "    " ++ l₂)]
    cases ls with
    | nil =>
      rw [intercalate_single nlIndent (chars "    " ++ l₂), intercalate_single nlIndent l₂]
      simp [nlIndent, List.append_assoc]
    | cons l₃ ls' =>
      rw [intercalate_cons nlIndent (chars "    " ++ l₂) (l₃ :: ls') (by simp),
        intercalate_cons nlIndent l₂ (l₃ :: ls') (by simp)]
      simp [nlIndent, List.append_assoc]

/-- A pattern extension: avoiding a pattern is inherited by any pattern it
begins. -/
theorem avoid_of_starts (p P s : List Char) (hpP : p <+: P)
    (h : ¬ p <:+: s) : ¬ P <:+: s :=
  fun hh => h ((List.IsPrefix.isInfix hpP).trans hh)

/-- Padding a clean string with one space on the right keeps it clean. -/
theorem avoid_pad_right (sep x : List Char) (hsep : sep ≠ [])
    (hsp : ' ' ∉ sep) (hx : ¬ sep <:+: x) : ¬ sep <:+: (x ++ [' ']) := by
  have h := not_infix_join sep hsep [' '] x [] (by simp)
    (fun c hc => by rw [List.mem_singleton.1 hc]; exact hsp)
    hx (fun hh => hsep (List.eq_nil_of_infix_nil hh))
  rw [List.append_nil] at h
  exact h

/-- Padding a clean string with one space on the left keeps it clean. -/
theorem avoid_pad_left (sep x : List Char) (hsep : sep ≠ [])
    (hsp : ' ' ∉ sep) (hx : ¬ sep <:+: x) : ¬ sep <:+: (' ' :: x) := by
  have h := not_infix_join sep hsep [' '] [] x (by simp)
    (fun c hc => by rw [List.mem_singleton.1 hc]; exact hsp)
    (fun hh => hsep (List.eq_nil_of_infix_nil hh)) hx
  simpa using h

/-- The characters the parser's right-hand side cleanup keeps. -/
def keepChar (c : Char) : Bool := !(c = '(') && (!(c = ')') && !(c = '\\'))

/-- The three removal passes of the parser are one filter. -/
theorem pyreplace_paren_chain (s : List Char) :
    pyreplace ['\\'] [] (pyreplace [')'] [] (pyreplace ['('] [] s))
      = s.filter keepChar := by
  rw [pyreplace_single_nil, pyreplace_single_nil, pyreplace_single_nil,
    filter_filter_char, filter_filter_char]
  rfl

/-- Appending the trailing comma keeps a good name's wrap facts. -/
theorem goodName_comma (d : List Char) (hd : GoodName d) :
    (d ++ [',']) ≠ [] ∧
      (∀ c ∈ d ++ [','], ¬ c.isWhitespace ∧ c ≠ '(' ∧ c ≠ ')' ∧ c ≠ '\\') ∧
      ¬ chars "import" <:+: (d ++ [',']) := by
  refine ⟨by simp, ?_, ?_⟩
  · intro c hc
    rcases List.mem_append.1 hc with hc | hc
    · exact ⟨(hd.2.1 c hc).1, (hd.2.1 c hc).2.2.1, (hd.2.1 c hc).2.2.2.1,
        (hd.2.1 c hc).2.2.2.2.1⟩
    · rw [List.mem_singleton.1 hc]
      exact ⟨by decide, by decide, by decide, by decide⟩
  · intro h
    rcases infix_through_excluded (chars "import") ',' (by decide) d [] h with h | h
    · exact hd.2.2 h
    · exact absurd (List.eq_nil_of_infix_nil h) (by decide)

/-- Facts about every word of the wrapped statement's tail. -/
theorem wordlist_facts (c1 : List Char) (cs' : List (List Char))
    (symbol : List Char) (hnames : ∀ d ∈ c1 :: cs', GoodName d)
    (hsym : GoodName symbol) :
    ∀ w ∈ (c1 :: cs').map (fun d => d ++ [',']) ++ [symbol],
      w ≠ [] ∧ (∀ c ∈ w, ¬ c.isWhitespace ∧ c ≠ '(' ∧ c ≠ ')' ∧ c ≠ '\\') ∧
        ¬ chars "import" <:+: w := by
  intro w hw
  rcases List.mem_append.1 hw with hw | hw
  · obtain ⟨d, hd, rfl⟩ := List.mem_map.1 hw
    exact goodName_comma d (hnames d hd)
  · rw [List.mem_singleton.1 hw]
    exact ⟨hsym.1, fun c hc => ⟨(hsym.2.1 c hc).1, (hsym.2.1 c hc).2.2.1,
      (hsym.2.1 c hc).2.2.2.1, (hsym.2.1 c hc).2.2.2.2.1⟩, hsym.2.2⟩

/-- The parser recovers the base and the full component list from any
statement whose component text is word-joined by whitespace junctions,
optionally carrying the parenthesis decoration of the wrap path. -/
theorem parse_shape {J : List Char → Prop}
    (hJk : ∀ s, J s → ∀ c ∈ s.filter keepChar, c.isWhitespace)
    (hJi : ∀ s, J s → s ≠ [] ∧ ∀ c ∈ s, c ∉ chars "import")
    (base symbol c1 : List Char) (cs' : List (List Char))
    (hb : GoodName base) (hbf : ¬ chars "from" <:+: base)
    (hnames : ∀ d ∈ c1 :: cs', GoodName d) (hsym : GoodName symbol)
    (T : List Char)
    (hTJ : Joined J ((c1 :: cs').map (fun d => d ++ [',']) ++ [symbol]) T)
    (mid tail : List Char)
    (hmid : mid = [' '] ∨ mid = chars " (")
    (htail : tail = [] ∨ tail = [')']) :
    split_import_components
        (chars "from " ++ base ++ [' '] ++ chars "import" ++ (mid ++ T ++ tail))
      = some (base, (c1 :: cs') ++ [symbol]) := by
  have hwl := wordlist_facts c1 cs' symbol hnames hsym
  have hwav : ∀ w ∈ (c1 :: cs').map (fun d => d ++ [',']) ++ [symbol],
      ¬ chars "import" <:+: w := fun w hw => (hwl w hw).2.2
  have hTav : ¬ chars "import" <:+: T :=
    joined_avoids (chars "import") (by decide) hJi hTJ hwav
  have hWfix : ∀ w ∈ (c1 :: cs').map (fun d => d ++ [',']) ++ [symbol],
      w.filter keepChar = w := by
    intro w hw
    refine List.filter_eq_self.2 ?_
    intro a ha
    have h := (hwl w hw).2.1 a ha
    simp [keepChar, h.2.1, h.2.2.1, h.2.2.2]
  have hTF := joined_filter keepChar hTJ hWfix
  have hAav : ¬ chars "import" <:+: (chars "from " ++ base ++ [' ']) := by
    have h1 : ¬ chars "import" <:+: (base ++ [' ']) :=
      avoid_pad_right (chars "import") base (by decide) (by decide) hb.2.2
    have h2 : ¬ chars "import" <:+: (chars "from" ++ [' '] ++ (base ++ [' '])) :=
      not_infix_join (chars "import") (by decide) [' '] (chars "from") (base ++ [' '])
        (by simp) (by decide) (by decide) h1
    intro h
    apply h2
    have he : chars "from " ++ base ++ [' ']
        = chars "from" ++ [' '] ++ (base ++ [' ']) := by
      have hfw : chars "from " = chars "from" ++ [' '] := by decide
      rw [hfw]
      simp [List.append_assoc]
    rw [← he]
    exact h
  have hTt : ¬ chars "import" <:+: (T ++ tail) := by
    rcases htail with rfl | rfl
    · rw [List.append_nil]
      exact hTav
    · intro h
      rcases infix_through_excluded (chars "import") ')' (by decide) T [] h with h | h
      · exact hTav h
      · exact absurd (List.eq_nil_of_infix_nil h) (by decide)
  have hyav : ¬ chars "import" <:+: (mid ++ T ++ tail) := by
    rcases hmid with rfl | rfl
    · exact avoid_pad_left (chars "import") (T ++ tail) (by decide) (by decide) hTt
    · intro h
      rcases infix_through_excluded (chars "import") ' ' (by decide) []
        ('(' :: (T ++ tail)) h with h' | h'
      · exact absurd (List.eq_nil_of_infix_nil h') (by decide)
      · rcases infix_through_excluded (chars "import") '(' (by decide) []
          (T ++ tail) h' with h3 | h3
        · exact absurd (List.eq_nil_of_infix_nil h3) (by decide)
        · exact hTt h3
  have hsplit : pysplitOn (chars "import")
      (chars "from " ++ base ++ [' '] ++ chars "import" ++ (mid ++ T ++ tail))
      = [chars "from " ++ base ++ [' '], mid ++ T ++ tail] := by
    rw [pysplitOn_occurrence (chars "import") (mid ++ T ++ tail) (by decide)
      unbordered_import (chars "from " ++ base ++ [' ']) hAav,
      pysplitOn_absent (chars "import") (mid ++ T ++ tail) hyav]
  have hbrec : pystrip (pyreplace (chars "from") []
      (chars "from " ++ base ++ [' '])) = base := by
    have hyfrom : ¬ chars "from" <:+: ([' '] ++ (base ++ [' '])) :=
      avoid_pad_left (chars "from") (base ++ [' ']) (by decide) (by decide)
        (avoid_pad_right (chars "from") base (by decide) (by decide) hbf)
    have he : chars "from " ++ base ++ [' ']
        = [] ++ chars "from" ++ ([' '] ++ (base ++ [' '])) := by
      have hfw : chars "from " = chars "from" ++ [' '] := by decide
      rw [hfw]
      simp [List.append_assoc]
    rw [he, pyreplace_occurrence (chars "from") [] ([' '] ++ (base ++ [' ']))
      (by decide) unbordered_from hyfrom []
      (fun hh => absurd (List.eq_nil_of_infix_nil hh) (by decide))]
    rw [show ([] : List Char) ++ [] ++ ([' '] ++ (base ++ [' ']))
      = [' '] ++ base ++ [' '] by simp]
    exact pystrip_sandwich [' '] base [' '] (by decide) (by decide)
      (fun c hc => (hb.2.1 c hc).1) hb.1
  have hchain : (mid ++ T ++ tail).filter keepChar = [' '] ++ T.filter keepChar := by
    have hm : mid.filter keepChar = [' '] := by
      rcases hmid with rfl | rfl <;> rfl
    have ht : tail.filter keepChar = [] := by
      rcases htail with rfl | rfl <;> rfl
    rw [List.filter_append, List.filter_append, hm, ht, List.append_nil]
  have hcomp := comps_pieces
    (fun s' hs' => by
      obtain ⟨s, hs, rfl⟩ := hs'
      exact hJk s hs)
    (c1 :: cs') symbol (T.filter keepChar) [' ']
    (fun d hd => ⟨(hnames d hd).1,
      (fun hc => absurd rfl ((hnames d hd).2.1 ',' hc).2.1),
      fun c hc => ((hnames d hd).2.1 c hc).1⟩)
    hsym.1 (fun hc => absurd rfl (hsym.2.1 ',' hc).2.1)
    (fun c hc => (hsym.2.1 c hc).1) (by decide) hTF
  unfold split_import_components
  rw [hsplit]
  simp only []
  rw [hbrec, pyreplace_paren_chain (mid ++ T ++ tail), hchain, hcomp]

/-- Structure of the greedy wrap of a merged statement: the first line
keeps `from base import` and the first component, some words spill onto
continuation groups, every group is nonempty and fits its width, and the
words are conserved. -/
theorem wrap_core (base symbol c1 : List Char) (cs : List (List Char))
    (hb : GoodName base) (hc1 : GoodName c1) (hcs : ∀ d ∈ cs, GoodName d)
    (hsym : GoodName symbol)
    (hfit : 14 + base.length + c1.length ≤ 76)
    (hwcs : ∀ d ∈ cs, d.length ≤ 71) (hwsym : symbol.length ≤ 72)
    (hlong : 77 ≤ (mergeStatement base (c1 :: cs) symbol).length) :
    ∃ q1 q2 : List (List Char),
      q1 ++ q2 = cs.map (fun d => d ++ [',']) ++ [symbol] ∧
      q2 ≠ [] ∧
      pywrap (mergeStatement base (c1 :: cs) symbol)
        = List.intercalate [' ']
            (chars "from" :: base :: chars "import" :: (c1 ++ [',']) :: q1)
          :: (wrapRestFuel 72 q2.length q2).map
              (fun g => chars "    " ++ List.intercalate [' '] g) ∧
      (∀ g ∈ wrapRestFuel 72 q2.length q2,
        g ≠ [] ∧ (List.intercalate [' '] g).length ≤ 72) ∧
      (List.intercalate [' ']
        (chars "from" :: base :: chars "import" :: (c1 ++ [',']) :: q1)).length ≤ 76 := by
  have h4 : (chars "from").length = 4 := by decide
  have h6 : (chars "import").length = 6 := by decide
  have hc1c : (c1 ++ [',']).length = c1.length + 1 := by
    rw [List.length_append]
    rfl
  have hfw : chars "from " = chars "from" ++ [' '] := by decide
  have himp : chars " import " = [' '] ++ chars "import" ++ [' '] := by decide
  have hstmt : mergeStatement base (c1 :: cs) symbol
      = List.intercalate [' '] (chars "from" :: base :: chars "import"
          :: ((c1 :: cs).map (fun d => d ++ [',']) ++ [symbol])) := by
    rw [intercalate_cons _ _ _ (by simp), intercalate_cons _ _ _ (by simp),
      intercalate_cons _ _ _ (by simp), inter_comma_words]
    unfold mergeStatement
    rw [hfw, himp]
    simp [List.append_assoc]
  have hwl := wordlist_facts c1 cs symbol
    (fun d hd => by
      rcases List.mem_cons.1 hd with rfl | hd
      · exact hc1
      · exact hcs d hd) hsym
  have hwords : wordsOf (mergeStatement base (c1 :: cs) symbol)
      = chars "from" :: base :: chars "import"
          :: ((c1 :: cs).map (fun d => d ++ [',']) ++ [symbol]) := by
    rw [hstmt]
    refine wordsOf_intercalate _ _ (by decide) (by decide) ?_
    intro v hv
    rcases List.mem_cons.1 hv with rfl | hv
    · exact ⟨hb.1, fun c hc => (hb.2.1 c hc).1⟩
    · rcases List.mem_cons.1 hv with rfl | hv
      · exact ⟨by decide, by decide⟩
      · exact ⟨(hwl v hv).1, fun c hc => ((hwl v hv).2.1 c hc).1⟩
  have hap1 := greedyTake_cons_fit 76 (chars "from").length base
    (chars "import" :: (c1 ++ [',']) :: (cs.map (fun d => d ++ [',']) ++ [symbol]))
    (by rw [h4]; omega)
  have hap2 := greedyTake_cons_fit 76 ((chars "from").length + 1 + base.length)
    (chars "import") ((c1 ++ [',']) :: (cs.map (fun d => d ++ [',']) ++ [symbol]))
    (by rw [h4, h6]; omega)
  have hap3 := greedyTake_cons_fit 76
    ((chars "from").length + 1 + base.length + 1 + (chars "import").length)
    (c1 ++ [',']) (cs.map (fun d => d ++ [',']) ++ [symbol])
    (by rw [h4, h6, hc1c]; omega)
  have hcur : (chars "from").length + 1 + base.length + 1 + (chars "import").length
      + 1 + (c1 ++ [',']).length = 14 + base.length + c1.length := by
    rw [h4, h6, hc1c]
    omega
  have hgroups : wrapGroups 76 72 (wordsOf (mergeStatement base (c1 :: cs) symbol))
      = (chars "from" :: base :: chars "import" :: (c1 ++ [','])
            :: (greedyTake 76 (14 + base.length + c1.length)
              (cs.map (fun d => d ++ [',']) ++ [symbol])).1)
        :: wrapRestFuel 72
            (greedyTake 76 (14 + base.length + c1.length)
              (cs.map (fun d => d ++ [',']) ++ [symbol])).2.length
            (greedyTake 76 (14 + base.length + c1.length)
              (cs.map (fun d => d ++ [',']) ++ [symbol])).2 := by
    rw [hwords, wrapGroups_cons]
    simp only [List.map_cons, List.cons_append]
    rw [hap1]
    dsimp only
    rw [hap2]
    dsimp only
    rw [hap3]
    dsimp only
    rw [hcur]
  have hQap := greedyTake_append 76 (cs.map (fun d => d ++ [',']) ++ [symbol])
    (14 + base.length + c1.length)
  have hlen1 : (mergeStatement base (c1 :: cs) symbol).length
      = (chars "from").length + sumLen (base :: chars "import" :: (c1 ++ [','])
          :: (cs.map (fun d => d ++ [',']) ++ [symbol])) := by
    rw [hstmt]
    exact inter_space_length _ _
  have hq2ne : (greedyTake 76 (14 + base.length + c1.length)
      (cs.map (fun d => d ++ [',']) ++ [symbol])).2 ≠ [] := by
    intro h2
    have hall := greedyTake_all 76 (cs.map (fun d => d ++ [',']) ++ [symbol])
      (14 + base.length + c1.length) (by simp) h2
    rw [hlen1] at hlong
    simp only [sumLen, List.map_cons, List.sum_cons] at hlong hall
    rw [h4, h6, hc1c] at hlong
    omega
  have hpyw : pywrap (mergeStatement base (c1 :: cs) symbol)
      = List.intercalate [' ']
          (chars "from" :: base :: chars "import" :: (c1 ++ [','])
            :: (greedyTake 76 (14 + base.length + c1.length)
              (cs.map (fun d => d ++ [',']) ++ [symbol])).1)
        :: (wrapRestFuel 72
            (greedyTake 76 (14 + base.length + c1.length)
              (cs.map (fun d => d ++ [',']) ++ [symbol])).2.length
            (greedyTake 76 (14 + base.length + c1.length)
              (cs.map (fun d => d ++ [',']) ++ [symbol])).2).map
            (fun g => chars "    " ++ List.intercalate [' '] g) := by
    unfold pywrap
    rw [hgroups]
  refine ⟨_, _, hQap, hq2ne, hpyw, ?_, ?_⟩
  · intro g hg
    have h72 : ∀ w ∈ (greedyTake 76 (14 + base.length + c1.length)
        (cs.map (fun d => d ++ [',']) ++ [symbol])).2, w.length ≤ 72 := by
      intro w hw
      have hwmem : w ∈ cs.map (fun d => d ++ [',']) ++ [symbol] := by
        rw [← hQap]
        exact List.mem_append_right _ hw
      rcases List.mem_append.1 hwmem with hw' | hw'
      · obtain ⟨d, hd, rfl⟩ := List.mem_map.1 hw'
        rw [List.length_append]
        have := hwcs d hd
        simp only [List.length_cons, List.length_nil]
        omega
      · rw [List.mem_singleton.1 hw']
        exact hwsym
    have hg2 := wrapRest_groups 72 _ _ g hg h72
    obtain ⟨⟨w, p, rfl⟩, hle⟩ := hg2
    exact ⟨by simp, hle⟩
  · have hb1 := greedyTake_bound 76 (base :: chars "import" :: (c1 ++ [','])
        :: (cs.map (fun d => d ++ [',']) ++ [symbol])) (chars "from").length
      (by rw [h4]; omega)
    rw [hap1] at hb1
    dsimp only at hb1
    rw [hap2] at hb1
    dsimp only at hb1
    rw [hap3] at hb1
    dsimp only at hb1
    rw [hcur] at hb1
    rw [inter_space_length]
    rw [h4] at hb1 ⊢
    exact hb1

/-- The `from base ` clause of a statement over a good base avoids the
letters `import`. -/
theorem fromA_avoids (base : List Char) (hb : GoodName base) :
    ¬ chars "import" <:+: (chars "from " ++ base ++ [' ']) := by
  have h1 : ¬ chars "import" <:+: (base ++ [' ']) :=
    avoid_pad_right (chars "import") base (by decide) (by decide) hb.2.2
  have h2 : ¬ chars "import" <:+: (chars "from" ++ [' '] ++ (base ++ [' '])) :=
    not_infix_join (chars "import") (by decide) [' '] (chars "from") (base ++ [' '])
      (by simp) (by decide) (by decide) h1
  intro h
  apply h2
  have he : chars "from " ++ base ++ [' ']
      = chars "from" ++ [' '] ++ (base ++ [' ']) := by
    rw [(by decide : chars "from " = chars "from" ++ [' '])]
    simp [List.append_assoc]
  rw [← he]
  exact h

/-- C4 (amended): over well-formed hyphen-free names (`GoodName`; hyphens
are excluded because `textwrap`'s default `break_on_hyphens` may split a
hyphenated name across lines, outside this model), when the single-line
rendering of the merged statement exceeds 76 characters while
`from base import` and the first component still fit the first line, the
wrap yields at least two lines, each at most 76 characters before
decoration, every continuation line carries the four-space hanging indent,
and re-parsing both the single-line rendering and the engine output (on
either decoration path) returns exactly the original base and component
list, so no name is broken.  The decorated output itself may exceed 76
columns by the added markers, as the counterexample shows. -/
theorem C4_wrap_amended (base symbol existing c1 : List Char)
    (cs : List (List Char))
    (hb : GoodName base) (hbf : ¬ chars "from" <:+: base)
    (hc1 : GoodName c1) (hcs : ∀ d ∈ cs, GoodName d) (hsym : GoodName symbol)
    (hfit : 14 + base.length + c1.length ≤ 76)
    (hwcs : ∀ d ∈ cs, d.length ≤ 71) (hwsym : symbol.length ≤ 72)
    (hlong : 77 ≤ (mergeStatement base (c1 :: cs) symbol).length) :
    2 ≤ (pywrap (mergeStatement base (c1 :: cs) symbol)).length ∧
    (∀ l ∈ pywrap (mergeStatement base (c1 :: cs) symbol), l.length ≤ 76) ∧
    (∀ l ∈ (pywrap (mergeStatement base (c1 :: cs) symbol)).tail,
      chars "    " <+: l) ∧
    split_import_components (mergeStatement base (c1 :: cs) symbol)
      = some (base, (c1 :: cs) ++ [symbol]) ∧
    split_import_components (merge_wrap_engine base (c1 :: cs) symbol existing)
      = some (base, (c1 :: cs) ++ [symbol]) := by
  obtain ⟨q1, q2, hQap, hq2ne, hpyw, hgfacts, hline1⟩ :=
    wrap_core base symbol c1 cs hb hc1 hcs hsym hfit hwcs hwsym hlong
  have hnames : ∀ d ∈ c1 :: cs, GoodName d := by
    intro d hd
    rcases List.mem_cons.1 hd with rfl | hd
    · exact hc1
    · exact hcs d hd
  have hwl := wordlist_facts c1 cs symbol hnames hsym
  have hSk : ∀ s, SepNL s → ∀ c ∈ s.filter keepChar, c.isWhitespace := by
    intro s hs
    rcases hs with rfl | rfl <;> decide
  have hSi : ∀ s, SepNL s → s ≠ [] ∧ ∀ c ∈ s, c ∉ chars "import" := by
    intro s hs
    rcases hs with rfl | rfl <;> exact ⟨by decide, by decide⟩
  have hT0 : Joined SepNL ((c1 :: cs).map (fun d => d ++ [',']) ++ [symbol])
      (List.intercalate [' '] ((c1 :: cs).map (fun d => d ++ [',']) ++ [symbol])) :=
    @joined_intercalate SepNL (Or.inl rfl)
      (cs.map (fun d => d ++ [',']) ++ [symbol]) (c1 ++ [','])
  have hparse1 : split_import_components (mergeStatement base (c1 :: cs) symbol)
      = some (base, (c1 :: cs) ++ [symbol]) := by
    have hshape : mergeStatement base (c1 :: cs) symbol
        = chars "from " ++ base ++ [' '] ++ chars "import"
          ++ ([' '] ++ List.intercalate [' ']
                ((c1 :: cs).map (fun d => d ++ [',']) ++ [symbol]) ++ []) := by
      unfold mergeStatement
      rw [← inter_comma_words]
      rw [(by decide : chars " import " = [' '] ++ chars "import" ++ [' '])]
      simp [List.append_assoc]
    rw [hshape]
    exact parse_shape hSk hSi base symbol c1 cs hb hbf hnames hsym _ hT0 [' '] []
      (Or.inl rfl) (Or.inl rfl)
  have hrest_ne : wrapRestFuel 72 q2.length q2 ≠ [] := by
    rcases q2 with _ | ⟨w, ws⟩
    · exact absurd rfl hq2ne
    · rw [List.length_cons]
      exact wrapRest_ne_nil 72 ws.length w ws
  have hmapne : ((wrapRestFuel 72 q2.length q2).map
      (fun g => chars "    " ++ List.intercalate [' '] g)) ≠ [] :=
    fun h => hrest_ne (List.map_eq_nil_iff.1 h)
  have hmapne2 : ((wrapRestFuel 72 q2.length q2).map (List.intercalate [' '])) ≠ [] :=
    fun h => hrest_ne (List.map_eq_nil_iff.1 h)
  refine ⟨?_, ?_, ?_, hparse1, ?_⟩
  · rw [hpyw, List.length_cons]
    have := List.length_pos.2 hmapne
    omega
  · intro l hl
    rw [hpyw] at hl
    rcases List.mem_cons.1 hl with rfl | hl
    · exact hline1
    · obtain ⟨g, hg, rfl⟩ := List.mem_map.1 hl
      rw [List.length_append, (by decide : (chars "    ").length = 4)]
      have := (hgfacts g hg).2
      omega
  · intro l hl
    rw [hpyw, List.tail_cons] at hl
    obtain ⟨g, hg, rfl⟩ := List.mem_map.1 hl
    exact ⟨_, rfl⟩
  · rw [merge_wrap_engine_def]
    have hlen2 : 1 < (pywrap (mergeStatement base (c1 :: cs) symbol)).length := by
      rw [hpyw, List.length_cons]
      have := List.length_pos.2 hmapne
      omega
    rw [if_pos hlen2]
    set TT := List.intercalate [' '] ((c1 ++ [',']) :: q1) ++ nlIndent ++
      List.intercalate nlIndent
        ((wrapRestFuel 72 q2.length q2).map (List.intercalate [' '])) with hTT
    have hTJ : Joined SepNL ((c1 :: cs).map (fun d => d ++ [',']) ++ [symbol]) TT := by
      have h1 := @joined_intercalate SepNL (Or.inl rfl) q1 (c1 ++ [','])
      have h2 := @joined_glue SepNL (Or.inl rfl) (Or.inr rfl)
        (wrapRestFuel 72 q2.length q2) hrest_ne (fun g hg => (hgfacts g hg).1)
      have h3 := joined_append h1 (Or.inr rfl : SepNL nlIndent) h2
      rw [wrapRest_flatten 72 q2.length q2 le_rfl] at h3
      rw [List.cons_append, hQap] at h3
      rw [hTT]
      exact h3
    have hfinal : List.intercalate ['\n']
        (pywrap (mergeStatement base (c1 :: cs) symbol))
        = chars "from " ++ base ++ [' '] ++ chars "import" ++ ([' '] ++ TT) := by
      rw [hpyw]
      rw [show (wrapRestFuel 72 q2.length q2).map
          (fun g => chars "    " ++ List.intercalate [' '] g)
          = ((wrapRestFuel 72 q2.length q2).map (List.intercalate [' '])).map
              (fun l => chars "    " ++ l) by rw [List.map_map]; rfl]
      rw [glue_lines]
      rw [intercalate_cons nlIndent _ _ hmapne2]
      rw [intercalate_cons [' '] (chars "from") _ (by simp),
        intercalate_cons [' '] base _ (by simp),
        intercalate_cons [' '] (chars "import") _ (by simp)]
      rw [hTT, (by decide : chars "from " = chars "from" ++ [' '])]
      simp [List.append_assoc]
    have hTimp : ¬ chars "import" <:+: TT :=
      joined_avoids (chars "import") (by decide) hSi hTJ
        (fun w hw => (hwl w hw).2.2)
    by_cases hbs : '\\' ∈ existing
    · rw [if_pos hbs, hfinal, pyreplace_single_expand]
      rw [show chars "from " ++ base ++ [' '] ++ chars "import" ++ ([' '] ++ TT)
          = (chars "from " ++ base ++ [' '] ++ chars "import" ++ [' ']) ++ TT
          by simp [List.append_assoc]]
      rw [List.flatMap_append]
      rw [flatMap_fixed _ (chars "from " ++ base ++ [' '] ++ chars "import" ++ [' ']) (by
        intro a ha
        have hnl : a ≠ '\n' := by
          intro heq
          subst heq
          rcases List.mem_append.1 ha with ha | ha
          · rcases List.mem_append.1 ha with ha | ha
            · rcases List.mem_append.1 ha with ha | ha
              · rcases List.mem_append.1 ha with ha | ha
                · exact absurd ha (by decide)
                · exact (hb.2.1 '\n' ha).1 (by decide)
              · exact absurd ha (by decide)
            · exact absurd ha (by decide)
          · exact absurd ha (by decide)
        exact if_neg hnl)]
      have hout : (chars "from " ++ base ++ [' '] ++ chars "import" ++ [' '])
            ++ TT.flatMap (fun a => if a = '\n' then chars " \\\n" else [a])
          = chars "from " ++ base ++ [' '] ++ chars "import" ++ ([' ']
            ++ TT.flatMap (fun a => if a = '\n' then chars " \\\n" else [a]) ++ []) := by
        simp [List.append_assoc]
      rw [hout]
      have hwfix : ∀ w ∈ (c1 :: cs).map (fun d => d ++ [',']) ++ [symbol],
          w.flatMap (fun a => if a = '\n' then chars " \\\n" else [a]) = w := by
        intro w hw
        refine flatMap_fixed _ w ?_
        intro a ha
        have hnw := ((hwl w hw).2.1 a ha).1
        exact if_neg (fun heq => hnw (by rw [heq]; decide))
      have hTB := joined_flatMap (fun a => if a = '\n' then chars " \\\n" else [a])
        hTJ hwfix
      refine parse_shape ?_ ?_ base symbol c1 cs hb hbf hnames hsym _ hTB [' '] []
        (Or.inl rfl) (Or.inl rfl)
      · intro s hs
        obtain ⟨s₀, hs₀, rfl⟩ := hs
        rcases hs₀ with rfl | rfl <;> decide
      · intro s hs
        obtain ⟨s₀, hs₀, rfl⟩ := hs
        rcases hs₀ with rfl | rfl <;> exact ⟨by decide, by decide⟩
    · rw [if_neg hbs]
      have hTsp : ¬ chars "import " <:+: TT :=
        avoid_of_starts (chars "import") (chars "import ") TT (by decide) hTimp
      have hAsp : ¬ chars "import " <:+: (chars "from " ++ base ++ [' ']) :=
        avoid_of_starts (chars "import") (chars "import ") _ (by decide)
          (fromA_avoids base hb)
      have hrepl : pyreplace (chars "import ") (chars "import (")
          (List.intercalate ['\n'] (pywrap (mergeStatement base (c1 :: cs) symbol)))
          = (chars "from " ++ base ++ [' ']) ++ chars "import (" ++ TT := by
        rw [hfinal]
        rw [show chars "from " ++ base ++ [' '] ++ chars "import" ++ ([' '] ++ TT)
            = (chars "from " ++ base ++ [' ']) ++ chars "import " ++ TT by
          rw [(by decide : chars "import " = chars "import" ++ [' '])]
          simp [List.append_assoc]]
        exact pyreplace_occurrence (chars "import ") (chars "import (") TT
          (by decide) unbordered_import_space hTsp
          (chars "from " ++ base ++ [' ']) hAsp
      rw [hrepl]
      have hout : (chars "from " ++ base ++ [' ']) ++ chars "import (" ++ TT ++ [')']
          = chars "from " ++ base ++ [' '] ++ chars "import"
            ++ (chars " (" ++ TT ++ [')']) := by
        rw [(by decide : chars "import (" = chars "import" ++ chars " (")]
        simp [List.append_assoc]
      rw [hout]
      exact parse_shape hSk hSi base symbol c1 cs hb hbf hnames hsym TT hTJ
        (chars " (") [')'] (Or.inr rfl) (Or.inr rfl)

/-- C4 (counterexample): merging `sym` into `from base import c⁵⁸` gives a
single-line rendering of 80 characters, whose words are all at most 72
characters, yet the engine's parenthesised output has a physical line of 77
characters — the inserted `(` pushes the first line past the 76-column
budget even though no component name alone exceeds the width. -/
theorem C4_counterexample :
    76 < (mergeStatement (chars "base") [List.replicate 58 'c']
        (chars "sym")).length ∧
    (∀ w ∈ wordsOf (mergeStatement (chars "base") [List.replicate 58 'c']
        (chars "sym")), w.length ≤ 72) ∧
    ((splitChar '\n' (merge_wrap_engine (chars "base") [List.replicate 58 'c']
          (chars "sym") (chars "from base import " ++ List.replicate 58 'c'))).map
        List.length = [77, 8]) := by
  refine ⟨by decide, by decide, by decide⟩

/-- C4 (witness): the amended wrap theorem applied to the concrete merge of
`sym` into `from base import c⁵⁸`. -/
theorem C4_wrap_amended_witness :
    2 ≤ (pywrap (mergeStatement (chars "base")
        (List.replicate 58 'c' :: []) (chars "sym"))).length ∧
    (∀ l ∈ pywrap (mergeStatement (chars "base")
        (List.replicate 58 'c' :: []) (chars "sym")), l.length ≤ 76) ∧
    (∀ l ∈ (pywrap (mergeStatement (chars "base")
        (List.replicate 58 'c' :: []) (chars "sym"))).tail, chars "    " <+: l) ∧
    split_import_components (mergeStatement (chars "base")
        (List.replicate 58 'c' :: []) (chars "sym"))
      = some (chars "base", (List.replicate 58 'c' :: []) ++ [chars "sym"]) ∧
    split_import_components (merge_wrap_engine (chars "base")
        (List.replicate 58 'c' :: []) (chars "sym") (chars "x"))
      = some (chars "base", (List.replicate 58 'c' :: []) ++ [chars "sym"]) :=
  C4_wrap_amended (chars "base") (chars "sym") (chars "x")
    (List.replicate 58 'c') []
    (by decide) (by decide) (by decide) (by decide) (by decide)
    (by decide) (by decide) (by decide) (by decide)

end AutoImport
